import Mathlib

/-!
Verification of `lar::sparse_vector<T>` (lardataobj/Utilities/sparse_vector.h)
and `sim::ParticleAncestryMap` (lardataobj/Simulation/ParticleAncestryMap.cxx).

The element type `T` is modelled as `Int`; the unsigned `size_type` indices
are modelled as `Nat` (all subtractions below occur at call sites where the
source guarantees no underflow).  Iterators into `std::vector<datarange_t>`
are modelled as positions (`Nat`) into the range list.
-/

set_option linter.unusedVariables false

namespace lar

/-- `lar::range_t` / `lar::sparse_vector<T>::datarange_t`.
`range_t` stores `offset` and `last`; `datarange_t` additionally owns the
value buffer and re-establishes `last = offset + values.size()` via
`fit_size_from_data()` after every buffer mutation, so every
`datarange_t` that the container manipulates satisfies that equation.
We therefore represent a data range by `offset` and `values` and derive
`last` as `offset + values.length`. -/
structure datarange_t where
  offset : Nat
  values : List Int
deriving DecidableEq

instance : Inhabited datarange_t := ⟨⟨0, []⟩⟩

namespace datarange_t

/-- `range_t::begin_index()`. -/
def begin_index (r : datarange_t) : Nat := r.offset

/-- `range_t::end_index()` (the `last` field). -/
def end_index (r : datarange_t) : Nat := r.offset + r.values.length

/-- `range_t::size()`. -/
def size (r : datarange_t) : Nat := r.values.length

/-- `range_t::empty()`. -/
def empty (r : datarange_t) : Bool := decide (r.values.length = 0)

/-- `range_t::includes(index)`. -/
def includes (r : datarange_t) (i : Nat) : Bool :=
  decide (r.offset ≤ i) && decide (i < r.end_index)

/-- `range_t::borders(index)`: within the range or immediately after it. -/
def borders (r : datarange_t) (i : Nat) : Bool :=
  decide (r.offset ≤ i) && decide (i ≤ r.end_index)

/-- `range_t::separate(r)`. -/
def separate (r s : datarange_t) : Bool :=
  decide (r.begin_index > s.end_index) || decide (r.end_index < s.begin_index)

/-- `range_t::operator<` / `range_t::less`: compare offsets. -/
def lt (r s : datarange_t) : Bool := decide (r.offset < s.offset)

/-- `datarange_t::operator[]`: value at absolute index `i`
(callers guarantee `i ∈ [offset, last)`). -/
def get (r : datarange_t) (i : Nat) : Int := r.values.getD (i - r.offset) 0

/-- `datarange_t::extend(index, first, last)`: resize the buffer to
`max(relative_index(index) + |vals|, size())` (new cells value-initialised
to `0`) and copy `vals` in starting at relative position `index - offset`. -/
def extend (r : datarange_t) (index : Nat) (vals : List Int) : datarange_t :=
  let rel := index - r.offset
  let new_size := max (rel + vals.length) r.values.length
  let padded := r.values ++ List.replicate (new_size - r.values.length) 0
  ⟨r.offset, padded.take rel ++ vals ++ padded.drop (rel + vals.length)⟩

/-- `datarange_t::resize(new_size)`: `values.resize` padding with
value-initialised `0`, then `fit_size_from_data()`. -/
def resize (r : datarange_t) (new_size : Nat) : datarange_t :=
  ⟨r.offset, r.values.take new_size ++ List.replicate (new_size - r.values.length) 0⟩

/-- `datarange_t::move_head(to_index, def_value)`. -/
def move_head (r : datarange_t) (to_index : Nat) (def_value : Int) : datarange_t :=
  if to_index = r.offset then r
  else if r.offset < to_index then ⟨to_index, r.values.drop (to_index - r.offset)⟩
  else ⟨to_index, List.replicate (r.offset - to_index) def_value ++ r.values⟩

/-- `datarange_t::move_tail(to_index, def_value)` =
`resize(relative_index(to_index), def_value)`. -/
def move_tail (r : datarange_t) (to_index : Nat) (def_value : Int) : datarange_t :=
  ⟨r.offset,
    r.values.take (to_index - r.offset) ++
      List.replicate ((to_index - r.offset) - r.values.length) def_value⟩

/-- The in-place combination inner loop of `sparse_vector::combine_range`
step (1): starting at absolute position `index` inside `r`, each buffer
cell is replaced by `op(old, src)` until `input` is exhausted; callers
guarantee `r.includes index` and `input.length ≤ end_index - index`. -/
def combine_into (r : datarange_t) (op : Int → Int → Int) (index : Nat)
    (input : List Int) : datarange_t :=
  let rel := index - r.offset
  ⟨r.offset,
    r.values.take rel ++
      List.zipWith op ((r.values.drop rel).take input.length) input ++
      r.values.drop (rel + input.length)⟩

end datarange_t

/-- `lar::sparse_vector<T>`: nominal size plus the sorted list of ranges. -/
structure sparse_vector where
  nominal_size : Nat
  ranges : List datarange_t
deriving DecidableEq

namespace sparse_vector

/-- `sparse_vector::size()`. -/
def size (v : sparse_vector) : Nat := v.nominal_size

/-- `sparse_vector::empty()`. -/
def is_empty (v : sparse_vector) : Bool := decide (v.size = 0)

/-- `find_next_range_iter(index)`: `std::upper_bound` over the range list
ordered by `offset`, i.e. (on the sorted lists the container maintains)
the position of the first range whose `offset` exceeds `index`;
`ranges.length` plays the role of `ranges.end()`. -/
def find_next_range_iter : List datarange_t → Nat → Nat
  | [], _ => 0
  | r :: rs, index => if index < r.offset then 0 else find_next_range_iter rs index + 1

/-- `find_range_iter_at_or_after(index)`: the range containing `index` if
any, else the first range past it.  `refresh_state()` of `const_iterator`
recomputes `currentRange` by exactly the same expression. -/
def find_range_iter_at_or_after (rs : List datarange_t) (index : Nat) : Nat :=
  let after := find_next_range_iter rs index
  if after ≠ 0 ∧ index < (rs.getD (after - 1) default).end_index then after - 1 else after

/-- `find_extending_range_iter(index)`: the previous range if it `borders`
`index`, else the first range past `index`. -/
def find_extending_range_iter (rs : List datarange_t) (index : Nat) : Nat :=
  let it := find_next_range_iter rs index
  if it ≠ 0 ∧ (rs.getD (it - 1) default).borders index then it - 1 else it

/-- `sparse_vector::operator[] const`: the stored element, or `0` in the
void. -/
def get (v : sparse_vector) (index : Nat) : Int :=
  let iNext := find_next_range_iter v.ranges index
  if iNext = 0 then 0
  else
    let r := v.ranges.getD (iNext - 1) default
    if index < r.end_index then r.get index else 0

/-- `sparse_vector::operator[]` (non-const): returns a `reference` proxy.
The proxy wraps a pointer that is null for void cells; we model it as
`Option Int` carrying the pointee value (`none` = null pointer). -/
def ref_at (v : sparse_vector) (index : Nat) : Option Int :=
  let iNext := find_next_range_iter v.ranges index
  if iNext = 0 then none
  else
    let r := v.ranges.getD (iNext - 1) default
    if index < r.end_index then some (r.get index) else none

/-- `const_reference::operator const value_type&`: the pointee if the
pointer is valid, else `value_zero`. -/
def const_reference_value : Option Int → Int
  | some x => x
  | none => 0

/-- `sparse_vector::is_void(index)`: throws `std::out_of_range` when the
range list is empty or `index ≥ size()`. -/
def is_void (v : sparse_vector) (index : Nat) : Except String Bool :=
  if v.ranges = [] ∨ v.size ≤ index then .error ("empty sparse vector")
  else
    let iNext := find_next_range_iter v.ranges index
    .ok (decide (iNext = 0 ∨ (v.ranges.getD (iNext - 1) default).end_index ≤ index))

/-- `merge_ranges` inner loop: fuse into `r` every following range that
`borders` its start, copying any data the next range has beyond `r`. -/
def merge_ranges_loop (r : datarange_t) : List datarange_t → datarange_t × List datarange_t
  | [] => (r, [])
  | s :: rest =>
    if r.borders s.begin_index then
      let r' :=
        if r.end_index < s.end_index then
          r.extend r.end_index (s.values.drop (r.end_index - s.offset))
        else r
      merge_ranges_loop r' rest
    else (r, s :: rest)

/-- `sparse_vector::fix_size()`: extend the nominal size to cover the last
range. -/
def fix_size (v : sparse_vector) : sparse_vector :=
  match v.ranges.getLast? with
  | none => v
  | some r => ⟨max v.nominal_size r.end_index, v.ranges⟩

/-- `sparse_vector::merge_ranges(iRange)` for `iRange` at position `i`,
followed by `fix_size()`.  (In the source the loop is only ever entered
with a dereferenceable iterator; for `i ≥ ranges.length` — which arises
only from inserting an empty range — no merging is performed.) -/
def merge_ranges (v : sparse_vector) (i : Nat) : sparse_vector :=
  if i < v.ranges.length then
    let p := merge_ranges_loop (v.ranges.getD i default) (v.ranges.drop (i + 1))
    fix_size ⟨v.nominal_size, v.ranges.take i ++ p.1 :: p.2⟩
  else fix_size v

/-- `sparse_vector::add_range(offset, first, last)`: extend the previous
range if it borders `offset`, otherwise splice in a new range
(`insert_range` skips empty data), then merge forward. -/
def add_range (v : sparse_vector) (offset : Nat) (data : List Int) : sparse_vector :=
  let iInsert := find_next_range_iter v.ranges offset
  if iInsert ≠ 0 ∧ (v.ranges.getD (iInsert - 1) default).borders offset then
    let prev := v.ranges.getD (iInsert - 1) default
    merge_ranges ⟨v.nominal_size, v.ranges.set (iInsert - 1) (prev.extend offset data)⟩
      (iInsert - 1)
  else if data.isEmpty then merge_ranges v iInsert
  else
    merge_ranges ⟨v.nominal_size, v.ranges.insertIdx iInsert ⟨offset, data⟩⟩ iInsert

/-- The `while (src != last)` loop of `sparse_vector::combine_range`,
acting on the suffix of the range list starting at the initial
`destRange`.  Each iteration performs step (1) — in-place combination
within the range containing `offset`, when there is one — and then
step (2) — creation of a new range combining `void_value` with input,
long enough to reach the next range.  `fuel` is a bound on the number of
iterations (each iteration consumes input or passes a range; the caller
supplies `src.length + rs.length + 1`). -/
def combine_range_loop (op : Int → Int → Int) (void_value : Int) :
    Nat → List Int → Nat → List datarange_t → List datarange_t
  | 0, _, _, rs => rs
  | _ + 1, [], _, rs => rs
  | fuel + 1, s :: src, offset, rs =>
    if rs ≠ [] ∧ (rs.headD default).includes offset then
      -- step (1): combine input into the range containing `offset`
      let r := rs.headD default
      let avail := r.end_index - offset
      if (s :: src).length ≤ avail then
        -- input exhausted inside this range: break out of the loop
        r.combine_into op offset (s :: src) :: rs.tail
      else
        -- this range is full: go on to step (2) at `offset = r.end_index`
        let src2 := (s :: src).drop avail
        let offset2 := r.end_index
        let rs2 := rs.tail
        let nrs := match rs2 with
          | [] => src2.length
          | r2 :: _ => r2.begin_index - offset2
        let m := min nrs src2.length
        r.combine_into op offset ((s :: src).take avail) ::
          (if m = 0 then
            match rs2 with
            | [] => rs2
            | r2 :: rest2 => r2 :: combine_range_loop op void_value fuel src2 r2.end_index rest2
          else
            ⟨offset2, (src2.take m).map (fun x => op void_value x)⟩ ::
              combine_range_loop op void_value fuel (src2.drop m) (offset2 + m) rs2)
    else
      -- step (2): `offset` is in the void; fill up to the next range
      let nrs := match rs with
        | [] => (s :: src).length
        | r2 :: _ => r2.begin_index - offset
      let m := min nrs (s :: src).length
      if m = 0 then
        match rs with
        | [] => rs
        | r2 :: rest2 => r2 :: combine_range_loop op void_value fuel (s :: src) r2.end_index rest2
      else
        ⟨offset, ((s :: src).take m).map (fun x => op void_value x)⟩ ::
          combine_range_loop op void_value fuel ((s :: src).drop m) (offset + m) rs

/-- `sparse_vector::combine_range(offset, first, last, op, void_value)`. -/
def combine_range (v : sparse_vector) (offset : Nat) (src : List Int)
    (op : Int → Int → Int) (void_value : Int) : sparse_vector :=
  let insertionPoint := offset
  let destIdx := find_range_iter_at_or_after v.ranges offset
  let fuel := src.length + (v.ranges.drop destIdx).length + 1
  let rs' := v.ranges.take destIdx ++
    combine_range_loop op void_value fuel src offset (v.ranges.drop destIdx)
  merge_ranges ⟨v.nominal_size, rs'⟩
    (find_extending_range_iter rs' (if insertionPoint = 0 then 0 else insertionPoint - 1))

/-- `sparse_vector::set_at(index, value)`: overwrite a present cell, or
add a singleton range. -/
def set_at (v : sparse_vector) (index : Nat) (value : Int) : sparse_vector :=
  let iNext := find_next_range_iter v.ranges index
  if iNext ≠ 0 ∧ index < (v.ranges.getD (iNext - 1) default).end_index then
    let r := v.ranges.getD (iNext - 1) default
    ⟨v.nominal_size,
      v.ranges.set (iNext - 1) ⟨r.offset, r.values.set (index - r.offset) value⟩⟩
  else add_range v index [value]

/-- `sparse_vector::unset_at(index)`: cast one cell into the void. -/
def unset_at (v : sparse_vector) (index : Nat) : sparse_vector :=
  let iNext := find_next_range_iter v.ranges index
  if iNext = 0 then v
  else
    let r := v.ranges.getD (iNext - 1) default
    if r.end_index ≤ index then v
    else if r.size = 1 then ⟨v.nominal_size, v.ranges.eraseIdx (iNext - 1)⟩
    else if index = r.begin_index then
      ⟨v.nominal_size, v.ranges.set (iNext - 1) (r.move_head (index + 1) 0)⟩
    else if index = r.end_index - 1 then
      ⟨v.nominal_size, v.ranges.set (iNext - 1) (r.move_tail index 0)⟩
    else
      ⟨v.nominal_size,
        ((v.ranges.set (iNext - 1) (r.move_tail index 0)).insertIdx iNext
          ⟨index + 1, r.values.drop (index + 1 - r.offset)⟩)⟩

/-- `sparse_vector::resize(new_size)` (void padding / truncation). -/
def resize (v : sparse_vector) (new_size : Nat) : sparse_vector :=
  if v.size ≤ new_size then ⟨new_size, v.ranges⟩
  else
    let rs := v.ranges.take (find_next_range_iter v.ranges new_size)
    let rs' := match rs.getLast? with
      | none => rs
      | some lastR =>
        if new_size = lastR.begin_index then rs.dropLast
        else if new_size < lastR.end_index then
          rs.dropLast ++ [lastR.resize (new_size - lastR.begin_index)]
        else rs
    ⟨new_size, rs'⟩

/-- The consecutive-pair checks of `sparse_vector::is_valid()`'s loop:
every range non-empty, strictly sorted, and `separate` from the next. -/
def ranges_ok : List datarange_t → Bool
  | [] => true
  | [r] => !r.empty
  | r :: s :: rest => !r.empty && r.lt s && r.separate s && ranges_ok (s :: rest)

/-- `end_index` of the last range (`0` when there is none). -/
def lastEnd (rs : List datarange_t) : Nat :=
  match rs.getLast? with
  | none => 0
  | some r => r.end_index

/-- `sparse_vector::is_valid()`. -/
def is_valid (v : sparse_vector) : Bool :=
  if v.ranges = [] then true
  else ranges_ok v.ranges && decide (lastEnd v.ranges ≤ v.nominal_size)

/-- The canonical-form invariant as a proposition: every range non-empty
and consecutive ranges strictly separated (at least one void cell). -/
def SVL (rs : List datarange_t) : Prop :=
  (∀ r ∈ rs, r.values ≠ []) ∧ List.Chain' (fun a b => a.end_index < b.offset) rs

/-- Weak form of the invariant: non-overlapping, adjacency allowed. -/
def WVL (rs : List datarange_t) : Prop :=
  (∀ r ∈ rs, r.values ≠ []) ∧ List.Chain' (fun a b => a.end_index ≤ b.offset) rs

/-- A sparse vector in the canonical form, nominal size included. -/
def Valid (v : sparse_vector) : Prop := SVL v.ranges ∧ lastEnd v.ranges ≤ v.nominal_size

/-- First range containing `k` (canonical lists have at most one), with
the value stored there: the observable contents of a range list. -/
def lookupV : List datarange_t → Nat → Option Int
  | [], _ => none
  | r :: rs, k => if r.includes k then some (r.get k) else lookupV rs k

end sparse_vector

/-- `sparse_vector<T>::const_iterator` (the container reference is passed
to each operation instead of being stored). -/
structure const_iterator where
  index : Nat
  currentRange : Nat
deriving DecidableEq

namespace const_iterator

open sparse_vector

/-- `const_iterator(container, offset)`: the index is clamped to the
container size, then `refresh_state()` recomputes the cached range
(the expression of `refresh_state()` is `find_range_iter_at_or_after`). -/
def at_offset (v : sparse_vector) (offset : Nat) : const_iterator :=
  ⟨min offset v.size, find_range_iter_at_or_after v.ranges (min offset v.size)⟩

/-- `begin()` (`special::begin`): index 0, first range. -/
def begin_iter (v : sparse_vector) : const_iterator := ⟨0, 0⟩

/-- `end()` (`special::end`): index `size()`, `ranges.end()`. -/
def end_iter (v : sparse_vector) : const_iterator := ⟨v.size, v.ranges.length⟩

/-- `const_iterator::operator++`. -/
def inc (v : sparse_vector) (it : const_iterator) : const_iterator :=
  if v.size ≤ it.index then it
  else
    let index := it.index + 1
    if it.currentRange ≠ v.ranges.length ∧
        (v.ranges.getD it.currentRange default).end_index ≤ index then
      ⟨index, it.currentRange + 1⟩
    else ⟨index, it.currentRange⟩

/-- `const_iterator::operator+=` with a forward displacement. -/
def add (v : sparse_vector) (it : const_iterator) (delta : Nat) : const_iterator :=
  if delta = 1 then inc v it
  else
    let index := it.index + delta
    if it.currentRange = v.ranges.length ∨
        ¬ (v.ranges.getD it.currentRange default).includes index then
      ⟨index, find_range_iter_at_or_after v.ranges index⟩
    else ⟨index, it.currentRange⟩

/-- `const_iterator::operator*`. -/
def deref (v : sparse_vector) (it : const_iterator) : Int :=
  if v.size ≤ it.index then 0
  else if it.currentRange = v.ranges.length then 0
  else
    let r := v.ranges.getD it.currentRange default
    if it.index < r.begin_index then 0
    else r.get it.index

/-- `const_iterator::operator==` (between iterators of one container:
the container pointers agree, so only the indices are compared). -/
def eq (it₁ it₂ : const_iterator) : Bool := decide (it₁.index = it₂.index)

end const_iterator

/-- The `const_iterator`s of container `v` obtainable by public means:
constructed from an offset, as `begin()`, or reached by `operator++` /
`operator+=` steps. -/
inductive iter_reach (v : sparse_vector) : const_iterator → Prop
  | at_offset (offset : Nat) : iter_reach v (const_iterator.at_offset v offset)
  | begin_iter : iter_reach v (const_iterator.begin_iter v)
  | inc {it : const_iterator} : iter_reach v it → iter_reach v (const_iterator.inc v it)
  | add {it : const_iterator} (delta : Nat) :
      iter_reach v it → iter_reach v (const_iterator.add v it delta)

/-- Concrete states: the counterexample run for `combine_range`.
`cex_v0` is a freshly constructed vector, and each step is a public
mutating operation. -/
def cex_v0 : sparse_vector := ⟨0, []⟩

def cex_v1 : sparse_vector := cex_v0.add_range 0 [5]

def cex_v2 : sparse_vector := cex_v1.add_range 2 [7, 8]

def cex_v3 : sparse_vector := cex_v2.combine_range 2 [1, 1, 1] (fun a b => a + b) 0

/-- A freshly constructed `sparse_vector(10)`: nominal size 10, no range. -/
def fresh10 : sparse_vector := sparse_vector.resize ⟨0, []⟩ 10

/-- A freshly constructed `sparse_vector(5)`. -/
def fresh5 : sparse_vector := sparse_vector.resize ⟨0, []⟩ 5

end lar

namespace sim

/-- `sim::ParticleAncestryMap`: `fParticleMap` is a
`std::map<int, std::set<int>>`, modelled as its entry list in increasing
key order (each `std::set<int>` as its element list). -/
structure ParticleAncestryMap where
  fParticleMap : List (Int × List Int)
deriving DecidableEq

/-- `std::numeric_limits<int>::max()`. -/
def intMax : Int := 2147483647

/-- `ParticleAncestryMap::GetAncestor(trackid)`: the key of the first
entry whose descendant set contains `trackid`, else `-intMax`. -/
def ParticleAncestryMap.GetAncestor (m : ParticleAncestryMap) (trackid : Int) : Int :=
  match m.fParticleMap.find? (fun p => p.2.contains trackid) with
  | some p => p.1
  | none => -intMax

/-- `ParticleAncestryMap::Exists(trackid)`. -/
def ParticleAncestryMap.Exists (m : ParticleAncestryMap) (trackid : Int) : Bool :=
  decide (trackid ≠ -intMax)

/-- `ParticleAncestryMap::HasDroppedDescendants(trackid)`. -/
def ParticleAncestryMap.HasDroppedDescendants (m : ParticleAncestryMap) (trackid : Int) : Bool :=
  (m.fParticleMap.find? (fun p => p.1 = trackid)).isSome

end sim

/-!  ## Theorems  -/

/-!  ### `List.getD` utilities  -/

theorem getD_append_left {α : Type} (l l' : List α) (d : α) (n : Nat) (h : n < l.length) :
    (l ++ l').getD n d = l.getD n d := by
  induction l generalizing n with
  | nil => simp at h
  | cons a t ih =>
    cases n with
    | zero => rfl
    | succ n => simpa using ih n (by simpa using h)

theorem getD_append_right {α : Type} (l l' : List α) (d : α) (n : Nat) (h : l.length ≤ n) :
    (l ++ l').getD n d = l'.getD (n - l.length) d := by
  induction l generalizing n with
  | nil => simp
  | cons a t ih =>
    cases n with
    | zero => simp at h
    | succ n => simpa using ih n (by simpa using h)

theorem getD_take_lt {α : Type} (l : List α) (d : α) (m n : Nat) (h : n < m) :
    (l.take m).getD n d = l.getD n d := by
  induction l generalizing m n with
  | nil => simp
  | cons a t ih =>
    cases m with
    | zero => omega
    | succ m =>
      cases n with
      | zero => rfl
      | succ n => simpa using ih m n (by omega)

theorem getD_take_ge {α : Type} (l : List α) (d : α) (m n : Nat) (h : m ≤ n) :
    (l.take m).getD n d = d := by
  apply List.getD_eq_default
  exact le_trans (List.length_take_le m l) h

theorem getD_drop {α : Type} (l : List α) (d : α) (m n : Nat) :
    (l.drop m).getD n d = l.getD (m + n) d := by
  induction l generalizing m with
  | nil => simp
  | cons a t ih =>
    cases m with
    | zero => simp
    | succ m =>
      rw [List.drop_succ_cons, ih m]
      have hmn : m + 1 + n = (m + n) + 1 := by omega
      rw [hmn, List.getD_cons_succ]

theorem getD_replicate {α : Type} (x d : α) (m n : Nat) :
    (List.replicate m x).getD n d = if n < m then x else d := by
  induction m generalizing n with
  | zero => simp
  | succ m ih =>
    cases n with
    | zero => simp [List.replicate_succ]
    | succ n => simpa [List.replicate_succ] using ih n

theorem getD_map_lt (f : Int → Int) (l : List Int) (d : Int) (n : Nat) (h : n < l.length) :
    (l.map f).getD n d = f (l.getD n d) := by
  induction l generalizing n with
  | nil => simp at h
  | cons a t ih =>
    cases n with
    | zero => rfl
    | succ n => simpa using ih n (by simpa using h)

theorem getD_zipWith_lt (f : Int → Int → Int) (l l' : List Int) (d : Int) (n : Nat)
    (h : n < l.length) (h' : n < l'.length) :
    (List.zipWith f l l').getD n d = f (l.getD n d) (l'.getD n d) := by
  induction l generalizing l' n with
  | nil => simp at h
  | cons a t ih =>
    cases l' with
    | nil => simp at h'
    | cons b t' =>
      cases n with
      | zero => rfl
      | succ n => simpa using ih t' n (by simpa using h) (by simpa using h')

theorem getD_eq_default_of_ge {α : Type} (l : List α) (d : α) (n : Nat) (h : l.length ≤ n) :
    l.getD n d = d := List.getD_eq_default l d h

namespace lar

open sparse_vector

/-!  ### `datarange_t` basics  -/

namespace datarange_t

theorem includes_iff {r : datarange_t} {i : Nat} :
    r.includes i = true ↔ r.offset ≤ i ∧ i < r.end_index := by
  simp [includes]

theorem includes_eq_false_iff {r : datarange_t} {i : Nat} :
    r.includes i = false ↔ i < r.offset ∨ r.end_index ≤ i := by
  rw [← Bool.not_eq_true, includes_iff]
  omega

theorem borders_iff {r : datarange_t} {i : Nat} :
    r.borders i = true ↔ r.offset ≤ i ∧ i ≤ r.end_index := by
  simp [borders]

theorem offset_le_end (r : datarange_t) : r.offset ≤ r.end_index := by
  simp [end_index]

theorem offset_lt_end {r : datarange_t} (h : r.values ≠ []) : r.offset < r.end_index := by
  have := List.length_pos.mpr h
  simp only [end_index]
  omega

theorem end_index_eq (r : datarange_t) : r.end_index = r.offset + r.values.length := rfl

end datarange_t

/-!  ### `lookupV` basics  -/

theorem lookupV_nil (k : Nat) : lookupV [] k = none := rfl

theorem lookupV_cons (r : datarange_t) (rs : List datarange_t) (k : Nat) :
    lookupV (r :: rs) k = if r.includes k then some (r.get k) else lookupV rs k := rfl

theorem lookupV_singleton (r : datarange_t) (k : Nat) :
    lookupV [r] k = if r.includes k then some (r.get k) else none := rfl

theorem lookupV_isSome_iff (rs : List datarange_t) (k : Nat) :
    (lookupV rs k).isSome = true ↔ ∃ r ∈ rs, r.includes k = true := by
  induction rs with
  | nil => simp [lookupV]
  | cons r t ih =>
    rw [lookupV_cons]
    by_cases h : r.includes k = true
    · simp [h]
    · rw [if_neg h]
      simp only [ih, List.mem_cons]
      constructor
      · rintro ⟨s, hs, hsk⟩
        exact ⟨s, Or.inr hs, hsk⟩
      · rintro ⟨s, hs | hs, hsk⟩
        · exact absurd (hs ▸ hsk) h
        · exact ⟨s, hs, hsk⟩

theorem lookupV_eq_none_iff (rs : List datarange_t) (k : Nat) :
    lookupV rs k = none ↔ ∀ r ∈ rs, r.includes k = false := by
  rw [← Option.not_isSome_iff_eq_none]
  rw [Bool.not_eq_true (lookupV rs k).isSome]
  constructor
  · intro h r hr
    by_contra hc
    have : (lookupV rs k).isSome = true :=
      (lookupV_isSome_iff rs k).mpr ⟨r, hr, by revert hc; cases r.includes k <;> simp⟩
    rw [this] at h
    exact absurd h (by simp)
  · intro h
    by_contra hc
    have := (lookupV_isSome_iff rs k).mp (by revert hc; cases (lookupV rs k).isSome <;> simp)
    obtain ⟨r, hr, hrk⟩ := this
    rw [h r hr] at hrk
    exact absurd hrk (by simp)

theorem lookupV_none_of_lt_offset {rs : List datarange_t} {k : Nat}
    (h : ∀ r ∈ rs, k < r.offset) : lookupV rs k = none := by
  rw [lookupV_eq_none_iff]
  intro r hr
  rw [datarange_t.includes_eq_false_iff]
  exact Or.inl (h r hr)

theorem lookupV_none_of_ge_end {rs : List datarange_t} {k : Nat}
    (h : ∀ r ∈ rs, r.end_index ≤ k) : lookupV rs k = none := by
  rw [lookupV_eq_none_iff]
  intro r hr
  rw [datarange_t.includes_eq_false_iff]
  exact Or.inr (h r hr)

theorem lookupV_append_of_none {A : List datarange_t} (B : List datarange_t) {k : Nat}
    (h : lookupV A k = none) : lookupV (A ++ B) k = lookupV B k := by
  induction A with
  | nil => simp
  | cons r t ih =>
    rw [lookupV_cons] at h
    by_cases hb : r.includes k = true
    · rw [if_pos hb] at h
      simp at h
    · rw [if_neg hb] at h
      rw [List.cons_append, lookupV_cons, if_neg hb]
      exact ih h

theorem lookupV_append_of_some {A : List datarange_t} (B : List datarange_t) {k : Nat} {x : Int}
    (h : lookupV A k = some x) : lookupV (A ++ B) k = some x := by
  induction A with
  | nil => simp [lookupV] at h
  | cons r t ih =>
    rw [lookupV_cons] at h
    by_cases hb : r.includes k = true
    · rw [if_pos hb] at h
      rw [List.cons_append, lookupV_cons, if_pos hb]
      exact h
    · rw [if_neg hb] at h
      rw [List.cons_append, lookupV_cons, if_neg hb]
      exact ih h

/-!  ### `SVL` / `WVL` structure lemmas  -/

theorem SVL_nil : SVL [] := ⟨by simp, List.chain'_nil⟩

theorem WVL_nil : WVL [] := ⟨by simp, List.chain'_nil⟩

theorem SVL_toWVL {rs : List datarange_t} (h : SVL rs) : WVL rs :=
  ⟨h.1, List.Chain'.imp (fun a b hab => le_of_lt hab) h.2⟩

theorem SVL_cons_iff {r : datarange_t} {rs : List datarange_t} :
    SVL (r :: rs) ↔
      r.values ≠ [] ∧ (∀ s ∈ rs.head?, r.end_index < s.offset) ∧ SVL rs := by
  unfold SVL
  rw [List.chain'_cons']
  constructor
  · rintro ⟨hne, hh, hc⟩
    exact ⟨hne r (by simp), hh, fun s hs => hne s (by simp [hs]), hc⟩
  · rintro ⟨hr, hh, hne, hc⟩
    refine ⟨?_, hh, hc⟩
    intro s hs
    rcases List.mem_cons.mp hs with h | h
    · exact h ▸ hr
    · exact hne s h

theorem WVL_cons_iff {r : datarange_t} {rs : List datarange_t} :
    WVL (r :: rs) ↔
      r.values ≠ [] ∧ (∀ s ∈ rs.head?, r.end_index ≤ s.offset) ∧ WVL rs := by
  unfold WVL
  rw [List.chain'_cons']
  constructor
  · rintro ⟨hne, hh, hc⟩
    exact ⟨hne r (by simp), hh, fun s hs => hne s (by simp [hs]), hc⟩
  · rintro ⟨hr, hh, hne, hc⟩
    refine ⟨?_, hh, hc⟩
    intro s hs
    rcases List.mem_cons.mp hs with h | h
    · exact h ▸ hr
    · exact hne s h

theorem WVL_tail {r : datarange_t} {rs : List datarange_t} (h : WVL (r :: rs)) : WVL rs :=
  (WVL_cons_iff.mp h).2.2

theorem SVL_tail {r : datarange_t} {rs : List datarange_t} (h : SVL (r :: rs)) : SVL rs :=
  (SVL_cons_iff.mp h).2.2

/-- Each later range of a weakly canonical list starts at or after the end
of the head. -/
theorem WVL_head_le {a : datarange_t} {rs : List datarange_t} (h : WVL (a :: rs)) :
    ∀ b ∈ rs, a.end_index ≤ b.offset := by
  induction rs generalizing a with
  | nil => simp
  | cons c t ih =>
    intro b hb
    obtain ⟨hane, hlink, hrest⟩ := WVL_cons_iff.mp h
    have hac : a.end_index ≤ c.offset := hlink c (by simp)
    rcases List.mem_cons.mp hb with hbc | hbt
    · exact hbc ▸ hac
    · have hcb := ih hrest b hbt
      have hc : c.offset < c.end_index := datarange_t.offset_lt_end ((WVL_cons_iff.mp hrest).1)
      omega

theorem SVL_head_lt {a : datarange_t} {rs : List datarange_t} (h : SVL (a :: rs)) :
    ∀ b ∈ rs, a.end_index < b.offset := by
  induction rs generalizing a with
  | nil => simp
  | cons c t ih =>
    intro b hb
    obtain ⟨hane, hlink, hrest⟩ := SVL_cons_iff.mp h
    have hac : a.end_index < c.offset := hlink c (by simp)
    rcases List.mem_cons.mp hb with hbc | hbt
    · exact hbc ▸ hac
    · have hcb := ih hrest b hbt
      have hc : c.offset < c.end_index := datarange_t.offset_lt_end ((SVL_cons_iff.mp hrest).1)
      omega

theorem WVL_drop {rs : List datarange_t} (h : WVL rs) (n : Nat) : WVL (rs.drop n) :=
  ⟨fun r hr => h.1 r (List.mem_of_mem_drop hr), h.2.drop n⟩

theorem SVL_drop {rs : List datarange_t} (h : SVL rs) (n : Nat) : SVL (rs.drop n) :=
  ⟨fun r hr => h.1 r (List.mem_of_mem_drop hr), h.2.drop n⟩

theorem WVL_take {rs : List datarange_t} (h : WVL rs) (n : Nat) : WVL (rs.take n) := by
  refine ⟨fun r hr => h.1 r (List.mem_of_mem_take hr), ?_⟩
  have := h.2
  rw [← List.take_append_drop n rs, List.chain'_append] at this
  exact this.1

theorem SVL_take {rs : List datarange_t} (h : SVL rs) (n : Nat) : SVL (rs.take n) := by
  refine ⟨fun r hr => h.1 r (List.mem_of_mem_take hr), ?_⟩
  have := h.2
  rw [← List.take_append_drop n rs, List.chain'_append] at this
  exact this.1

theorem lastEnd_nil : lastEnd [] = 0 := rfl

theorem lastEnd_cons (r : datarange_t) (rs : List datarange_t) :
    lastEnd (r :: rs) = if rs = [] then r.end_index else lastEnd rs := by
  cases rs with
  | nil => rfl
  | cons s t => simp [lastEnd, List.getLast?_cons_cons]

/-- In a weakly canonical list every range ends at or before the last
range's end. -/
theorem end_le_lastEnd {rs : List datarange_t} (h : WVL rs) :
    ∀ r ∈ rs, r.end_index ≤ lastEnd rs := by
  induction rs with
  | nil => simp
  | cons a t ih =>
    intro r hr
    rw [lastEnd_cons]
    rcases List.mem_cons.mp hr with hra | hrt
    · subst hra
      cases t with
      | nil => simp
      | cons s t' =>
        rw [if_neg (by simp)]
        have h1 : r.end_index ≤ s.offset := WVL_head_le h s (by simp)
        have h2 : s.end_index ≤ lastEnd (s :: t') := ih (WVL_tail h) s (by simp)
        have h3 : s.offset ≤ s.end_index := datarange_t.offset_le_end s
        omega
    · have ht : t ≠ [] := by rintro rfl; simp at hrt
      rw [if_neg ht]
      exact ih (WVL_tail h) r hrt

theorem lookupV_lt_lastEnd {rs : List datarange_t} {k : Nat} (h : WVL rs)
    (hs : (lookupV rs k).isSome = true) : k < lastEnd rs := by
  obtain ⟨r, hr, hrk⟩ := (lookupV_isSome_iff rs k).mp hs
  have h1 := (datarange_t.includes_iff.mp hrk).2
  have h2 := end_le_lastEnd h r hr
  omega

theorem lookupV_lastEnd_pred {rs : List datarange_t} (h : WVL rs) (hne : rs ≠ []) :
    (lookupV rs (lastEnd rs - 1)).isSome = true := by
  have hlast : rs.getLast? = some (rs.getLast hne) := List.getLast?_eq_getLast rs hne
  have hmem : rs.getLast hne ∈ rs := List.getLast_mem hne
  have hend : lastEnd rs = (rs.getLast hne).end_index := by simp [lastEnd, hlast]
  rw [lookupV_isSome_iff]
  refine ⟨rs.getLast hne, hmem, ?_⟩
  rw [datarange_t.includes_iff]
  have := datarange_t.offset_lt_end (h.1 _ hmem)
  omega

/-- Two weakly canonical lists covering the same cells have the same
last end. -/
theorem lastEnd_eq_of_cov {L₁ L₂ : List datarange_t} (h₁ : WVL L₁) (h₂ : WVL L₂)
    (hcov : ∀ k, (lookupV L₁ k).isSome = (lookupV L₂ k).isSome) :
    lastEnd L₁ = lastEnd L₂ := by
  rcases eq_or_ne L₁ [] with rfl | hne₁
  · rcases eq_or_ne L₂ [] with rfl | hne₂
    · rfl
    · have := lookupV_lastEnd_pred h₂ hne₂
      rw [← hcov] at this
      simp [lookupV] at this
  · rcases eq_or_ne L₂ [] with rfl | hne₂
    · have := lookupV_lastEnd_pred h₁ hne₁
      rw [hcov] at this
      simp [lookupV] at this
    · have e₁ := lookupV_lastEnd_pred h₁ hne₁
      have e₂ := lookupV_lastEnd_pred h₂ hne₂
      have l₁ : lastEnd L₁ - 1 < lastEnd L₂ := lookupV_lt_lastEnd h₂ (by rw [← hcov]; exact e₁)
      have l₂ : lastEnd L₂ - 1 < lastEnd L₁ := lookupV_lt_lastEnd h₁ (by rw [hcov]; exact e₂)
      have p₁ : 0 < lastEnd L₁ := by
        obtain ⟨r, hr, hrk⟩ := (lookupV_isSome_iff _ _).mp e₁
        have := end_le_lastEnd h₁ r hr
        have := datarange_t.offset_lt_end (h₁.1 r hr)
        omega
      have p₂ : 0 < lastEnd L₂ := by
        obtain ⟨r, hr, hrk⟩ := (lookupV_isSome_iff _ _).mp e₂
        have := end_le_lastEnd h₂ r hr
        have := datarange_t.offset_lt_end (h₂.1 r hr)
        omega
      omega

/-!  ### `find_next_range_iter` / `get` / `ref_at` characterizations  -/

theorem fnr_nil (k : Nat) : find_next_range_iter [] k = 0 := rfl

theorem fnr_cons (r : datarange_t) (rs : List datarange_t) (k : Nat) :
    find_next_range_iter (r :: rs) k =
      if k < r.offset then 0 else find_next_range_iter rs k + 1 := rfl

theorem fnr_le_length (rs : List datarange_t) (k : Nat) :
    find_next_range_iter rs k ≤ rs.length := by
  induction rs with
  | nil => simp [fnr_nil]
  | cons r t ih =>
    rw [fnr_cons]
    split
    · simp
    · simpa using ih

/-- `get` on a tail: when the upper bound lands beyond the head, the head
is irrelevant. -/
theorem get_cons_of_fnr_ne_zero {n : Nat} {r : datarange_t} {t : List datarange_t} {k : Nat}
    (h0 : ¬ k < r.offset) (hf : find_next_range_iter t k ≠ 0) :
    sparse_vector.get ⟨n, r :: t⟩ k = sparse_vector.get ⟨n, t⟩ k := by
  unfold sparse_vector.get
  simp only [fnr_cons, if_neg h0]
  obtain ⟨j, hj⟩ := Nat.exists_eq_succ_of_ne_zero hf
  rw [hj]
  simp

/-- `get` is the canonical cell lookup on weakly canonical lists. -/
theorem get_eq_lookupV {v : sparse_vector} (h : WVL v.ranges) (k : Nat) :
    v.get k = (lookupV v.ranges k).getD 0 := by
  obtain ⟨n, rs⟩ := v
  simp only []
  induction rs with
  | nil => simp [sparse_vector.get, lookupV, fnr_nil]
  | cons r t ih =>
    by_cases h0 : k < r.offset
    · have hA : ∀ s ∈ (r :: t), k < s.offset := by
        intro s hs
        rcases List.mem_cons.mp hs with rfl | hst
        · exact h0
        · have h1 := WVL_head_le h s hst
          have h2 := datarange_t.offset_lt_end ((WVL_cons_iff.mp h).1)
          omega
      rw [lookupV_none_of_lt_offset hA]
      unfold sparse_vector.get
      rw [fnr_cons, if_pos h0]
      simp
    · rcases Nat.eq_zero_or_pos (find_next_range_iter t k) with hf | hf
      · -- the head is the last candidate range
        have htf : ∀ s ∈ t, k < s.offset := by
          intro s hs
          cases t with
          | nil => simp at hs
          | cons c t' =>
            have hc : k < c.offset := by
              rw [fnr_cons] at hf
              by_contra hcon
              rw [if_neg hcon] at hf
              simp at hf
            rcases List.mem_cons.mp hs with rfl | hst
            · exact hc
            · have h1 := WVL_head_le (WVL_tail h) s hst
              have h2 := datarange_t.offset_lt_end ((WVL_cons_iff.mp (WVL_tail h)).1)
              omega
        unfold sparse_vector.get
        rw [fnr_cons, if_neg h0, hf]
        rw [if_neg (by omega)]
        simp only [Nat.add_sub_cancel, List.getD_cons_zero]
        rw [lookupV_cons]
        by_cases hin : k < r.end_index
        · rw [if_pos hin, if_pos (datarange_t.includes_iff.mpr ⟨by omega, hin⟩)]
          simp
        · rw [if_neg hin,
            if_neg (by rw [Bool.not_eq_true, datarange_t.includes_eq_false_iff]; omega)]
          rw [lookupV_none_of_lt_offset htf]
          simp
      · -- the upper bound is past the head: recurse
        have hne : find_next_range_iter t k ≠ 0 := by omega
        rw [get_cons_of_fnr_ne_zero h0 hne]
        rw [lookupV_cons, if_neg ?_]
        · exact ih (WVL_tail h)
        · -- the head cannot contain k: the next range starts at or before k
          cases t with
          | nil => simp [fnr_nil] at hne
          | cons c t' =>
            have hck : c.offset ≤ k := by
              rw [fnr_cons] at hne
              by_contra hcon
              rw [if_pos (by omega)] at hne
              simp at hne
            have hlink : r.end_index ≤ c.offset := (WVL_cons_iff.mp h).2.1 c (by simp)
            rw [Bool.not_eq_true, datarange_t.includes_eq_false_iff]
            omega

/-- `ref_at` on a tail, as for `get`. -/
theorem ref_at_cons_of_fnr_ne_zero {n : Nat} {r : datarange_t} {t : List datarange_t} {k : Nat}
    (h0 : ¬ k < r.offset) (hf : find_next_range_iter t k ≠ 0) :
    ref_at ⟨n, r :: t⟩ k = ref_at ⟨n, t⟩ k := by
  unfold ref_at
  simp only [fnr_cons, if_neg h0]
  obtain ⟨j, hj⟩ := Nat.exists_eq_succ_of_ne_zero hf
  rw [hj]
  simp

/-- When no range at all contains `k`, the mutable indexing proxy holds a
null pointer and the const read yields zero.  (No canonicity needed:
`upper_bound`'s candidate range starts at or before `k`, so if it does not
contain `k` the access reports void.) -/
theorem ref_at_none_of_uncovered {v : sparse_vector} {k : Nat}
    (h : ∀ r ∈ v.ranges, r.includes k = false) :
    v.ref_at k = none ∧ v.get k = 0 := by
  obtain ⟨n, rs⟩ := v
  simp only [] at h ⊢
  induction rs with
  | nil => exact ⟨rfl, rfl⟩
  | cons r t ih =>
    have hr : r.includes k = false := h r (by simp)
    by_cases h0 : k < r.offset
    · constructor
      · unfold ref_at
        rw [fnr_cons, if_pos h0]
        simp
      · unfold sparse_vector.get
        rw [fnr_cons, if_pos h0]
        simp
    · rcases Nat.eq_zero_or_pos (find_next_range_iter t k) with hf | hf
      · have hrk : ¬ k < r.end_index := by
          rw [datarange_t.includes_eq_false_iff] at hr
          omega
        constructor
        · unfold ref_at
          rw [fnr_cons, if_neg h0, hf, if_neg (by omega)]
          simp [if_neg hrk]
        · unfold sparse_vector.get
          rw [fnr_cons, if_neg h0, hf, if_neg (by omega)]
          simp [if_neg hrk]
      · have hne : find_next_range_iter t k ≠ 0 := by omega
        have iht := ih (fun s hs => h s (by simp [hs]))
        rw [ref_at_cons_of_fnr_ne_zero h0 hne, get_cons_of_fnr_ne_zero h0 hne]
        exact iht

/-!  ### `find_range_iter_at_or_after` characterization  -/

theorem aoa_nil (k : Nat) : find_range_iter_at_or_after [] k = 0 := rfl

theorem aoa_def (rs : List datarange_t) (k : Nat) :
    find_range_iter_at_or_after rs k =
      if find_next_range_iter rs k ≠ 0 ∧
          k < (rs.getD (find_next_range_iter rs k - 1) default).end_index then
        find_next_range_iter rs k - 1
      else find_next_range_iter rs k := rfl

/-- On (weakly) canonical lists, `find_range_iter_at_or_after` satisfies a
head-peeling recursion: the head is the result exactly when `k` lies
before its end. -/
theorem aoa_cons {r : datarange_t} {t : List datarange_t} (h : WVL (r :: t)) (k : Nat) :
    find_range_iter_at_or_after (r :: t) k =
      if k < r.end_index then 0 else find_range_iter_at_or_after t k + 1 := by
  by_cases hk0 : k < r.offset
  · have hend : k < r.end_index := by
      have := datarange_t.offset_le_end r
      omega
    rw [if_pos hend, aoa_def, fnr_cons, if_pos hk0]
    simp
  · by_cases hk1 : k < r.end_index
    · -- k inside the head range
      have hft : find_next_range_iter t k = 0 := by
        cases t with
        | nil => rfl
        | cons c t' =>
          have hlink : r.end_index ≤ c.offset := (WVL_cons_iff.mp h).2.1 c (by simp)
          rw [fnr_cons, if_pos (by omega)]
      rw [if_pos hk1, aoa_def, fnr_cons, if_neg hk0, hft]
      simp [hk1]
    · -- k at or past the end of the head range
      rw [if_neg hk1, aoa_def, aoa_def, fnr_cons, if_neg hk0]
      rcases Nat.eq_zero_or_pos (find_next_range_iter t k) with hft | hft
      · rw [hft]
        simp [hk1]
      · obtain ⟨j, hj⟩ := Nat.exists_eq_succ_of_ne_zero (by omega : find_next_range_iter t k ≠ 0)
        rw [hj]
        by_cases hc : k < (t.getD j default).end_index
        · rw [List.getD_eq_getElem?_getD] at hc
          simp [hc]
        · rw [List.getD_eq_getElem?_getD] at hc
          simp [hc]

theorem aoa_le_length {rs : List datarange_t} (h : WVL rs) (k : Nat) :
    find_range_iter_at_or_after rs k ≤ rs.length := by
  induction rs with
  | nil => simp [aoa_nil]
  | cons r t ih =>
    rw [aoa_cons h]
    split
    · simp
    · simpa using ih (WVL_tail h)

theorem aoa_eq_length_iff {rs : List datarange_t} (h : WVL rs) (k : Nat) :
    find_range_iter_at_or_after rs k = rs.length ↔ ∀ r ∈ rs, r.end_index ≤ k := by
  induction rs with
  | nil => simp [aoa_nil]
  | cons r t ih =>
    rw [aoa_cons h]
    by_cases hk : k < r.end_index
    · rw [if_pos hk]
      simp only [List.length_cons]
      constructor
      · omega
      · intro hall
        exact absurd (hall r (by simp)) (by omega)
    · rw [if_neg hk]
      simp only [List.length_cons, Nat.add_right_cancel_iff]
      rw [ih (WVL_tail h)]
      constructor
      · intro hall s hs
        rcases List.mem_cons.mp hs with rfl | hst
        · omega
        · exact hall s hst
      · intro hall s hs
        exact hall s (by simp [hs])

theorem aoa_lt_spec {rs : List datarange_t} (h : WVL rs) (k : Nat)
    (hlt : find_range_iter_at_or_after rs k < rs.length) :
    k < (rs.getD (find_range_iter_at_or_after rs k) default).end_index ∧
      ∀ r ∈ rs.take (find_range_iter_at_or_after rs k), r.end_index ≤ k := by
  induction rs with
  | nil => simp at hlt
  | cons r t ih =>
    rw [aoa_cons h] at hlt ⊢
    by_cases hk : k < r.end_index
    · rw [if_pos hk] at hlt ⊢
      simpa using hk
    · rw [if_neg hk] at hlt ⊢
      have iht := ih (WVL_tail h) (by simpa using hlt)
      refine ⟨by simpa using iht.1, ?_⟩
      intro s hs
      rw [List.take_succ_cons] at hs
      rcases List.mem_cons.mp hs with rfl | hst
      · omega
      · exact iht.2 s hst

theorem aoa_of_includes {rs : List datarange_t} (h : WVL rs) {j k : Nat}
    (hj : j < rs.length) (hinc : (rs.getD j default).includes k = true) :
    find_range_iter_at_or_after rs k = j := by
  induction rs generalizing j with
  | nil => simp at hj
  | cons r t ih =>
    rw [aoa_cons h]
    cases j with
    | zero =>
      have := datarange_t.includes_iff.mp (by simpa using hinc)
      rw [if_pos this.2]
    | succ j =>
      have hj' : j < t.length := by simpa using hj
      have hinc' : (t.getD j default).includes k = true := by simpa using hinc
      have hmem : t.getD j default ∈ t := by
        rw [List.getD_eq_getElem?_getD, List.getElem?_eq_getElem hj']
        simp [List.getElem_mem]
      have hoffs : r.end_index ≤ (t.getD j default).offset := WVL_head_le h _ hmem
      have hk : ¬ k < r.end_index := by
        have := (datarange_t.includes_iff.mp hinc').1
        omega
      rw [if_neg hk, ih (WVL_tail h) hj' hinc']

theorem aoa_zero {rs : List datarange_t} (h : WVL rs) :
    find_range_iter_at_or_after rs 0 = 0 := by
  cases rs with
  | nil => rfl
  | cons r t =>
    rw [aoa_cons h, if_pos]
    exact datarange_t.offset_lt_end ((WVL_cons_iff.mp h).1) |> lt_of_le_of_lt (Nat.zero_le _)

/-- The step relation of `find_range_iter_at_or_after` under an index
increment: exactly the cached-range update of `operator++`. -/
theorem aoa_step {rs : List datarange_t} (h : WVL rs) (k : Nat) :
    find_range_iter_at_or_after rs (k + 1) =
      if find_range_iter_at_or_after rs k ≠ rs.length ∧
          (rs.getD (find_range_iter_at_or_after rs k) default).end_index ≤ k + 1 then
        find_range_iter_at_or_after rs k + 1
      else find_range_iter_at_or_after rs k := by
  induction rs with
  | nil => simp [aoa_nil]
  | cons r t ih =>
    rw [aoa_cons h, aoa_cons h]
    by_cases hk : k < r.end_index
    · rw [if_pos hk]
      by_cases hk1 : k + 1 < r.end_index
      · rw [if_pos hk1, if_neg (by simp; omega)]
      · -- k + 1 = r.end_index: move to the next range, which starts past it
        rw [if_neg hk1]
        have hrec : find_range_iter_at_or_after t (k + 1) = 0 := by
          cases t with
          | nil => rfl
          | cons c t' =>
            have hlink : r.end_index ≤ c.offset := (WVL_cons_iff.mp h).2.1 c (by simp)
            have hc := datarange_t.offset_lt_end ((WVL_cons_iff.mp (WVL_tail h)).1)
            rw [aoa_cons (WVL_tail h), if_pos (by omega)]
        rw [hrec, if_pos (by simp; omega)]
    · rw [if_neg hk]
      have hk1 : ¬ k + 1 < r.end_index := by omega
      rw [if_neg hk1, ih (WVL_tail h)]
      by_cases hc : find_range_iter_at_or_after t k ≠ t.length ∧
          (t.getD (find_range_iter_at_or_after t k) default).end_index ≤ k + 1
      · rw [if_pos hc, if_pos (by simpa using hc)]
      · rw [if_neg hc, if_neg (by simpa using hc)]

/-!  ### `is_valid` versus the canonical-form proposition  -/

theorem ranges_ok_iff (rs : List datarange_t) : ranges_ok rs = true ↔ SVL rs := by
  induction rs with
  | nil => simp [ranges_ok, SVL_nil]
  | cons r t ih =>
    cases t with
    | nil =>
      simp only [ranges_ok, SVL_cons_iff]
      simp [datarange_t.empty, SVL_nil]
    | cons s t' =>
      simp only [ranges_ok, Bool.and_eq_true, ih]
      constructor
      · rintro ⟨⟨⟨hne, hlt⟩, hsep⟩, hsvl⟩
        have hrne : r.values ≠ [] := by
          simpa [datarange_t.empty] using hne
        have hsne : s.values ≠ [] := (SVL_cons_iff.mp hsvl).1
        rw [SVL_cons_iff]
        refine ⟨hrne, ?_, hsvl⟩
        intro u hu
        simp only [List.head?_cons, Option.mem_def, Option.some.injEq] at hu
        subst hu
        simp only [datarange_t.lt, decide_eq_true_eq] at hlt
        simp only [datarange_t.separate, datarange_t.begin_index, Bool.or_eq_true,
          decide_eq_true_eq] at hsep
        have := datarange_t.offset_le_end s
        rcases hsep with hsep | hsep
        · omega
        · exact hsep
      · intro hfull
        obtain ⟨hrne, hlink', hsvl⟩ := SVL_cons_iff.mp hfull
        have hlink : r.end_index < s.offset := hlink' s (by simp)
        have hr := datarange_t.offset_lt_end hrne
        refine ⟨⟨⟨?_, ?_⟩, ?_⟩, hsvl⟩
        · simpa [datarange_t.empty] using hrne
        · simp only [datarange_t.lt, decide_eq_true_eq]
          omega
        · simp only [datarange_t.separate, datarange_t.begin_index, Bool.or_eq_true,
            decide_eq_true_eq]
          exact Or.inr hlink

theorem is_valid_iff_Valid (v : sparse_vector) : v.is_valid = true ↔ Valid v := by
  unfold is_valid Valid
  by_cases he : v.ranges = []
  · rw [if_pos he, he]
    simp [SVL_nil, lastEnd_nil]
  · rw [if_neg he]
    simp only [Bool.and_eq_true, ranges_ok_iff, decide_eq_true_eq]

/-!  ### `const_iterator`: cached range and dereference  -/

theorem getD_eq_getElem {α : Type} [Inhabited α] (l : List α) (j : Nat) (h : j < l.length) :
    l.getD j default = l[j] := by
  rw [List.getD_eq_getElem?_getD, List.getElem?_eq_getElem h]
  rfl

theorem get_eq_zero_of_ge_size {v : sparse_vector} (h : Valid v) {k : Nat}
    (hk : v.size ≤ k) : v.get k = 0 := by
  rw [get_eq_lookupV (SVL_toWVL h.1), lookupV_none_of_ge_end ?_]
  · rfl
  · intro r hr
    have h1 := end_le_lastEnd (SVL_toWVL h.1) r hr
    have h2 := h.2
    have h3 : v.size = v.nominal_size := rfl
    omega

theorem deref_def (v : sparse_vector) (it : const_iterator) :
    const_iterator.deref v it =
      if v.size ≤ it.index then 0
      else if it.currentRange = v.ranges.length then 0
      else if it.index < (v.ranges.getD it.currentRange default).begin_index then 0
      else (v.ranges.getD it.currentRange default).get it.index := rfl

/-- Dereferencing through a correctly cached range yields the same value
as the random element access. -/
theorem deref_eq_get {v : sparse_vector} (h : Valid v) (it : const_iterator)
    (hcur : it.currentRange = find_range_iter_at_or_after v.ranges it.index) :
    const_iterator.deref v it = v.get it.index := by
  have hW : WVL v.ranges := SVL_toWVL h.1
  rw [deref_def]
  by_cases hsz : v.size ≤ it.index
  · rw [if_pos hsz, get_eq_zero_of_ge_size h hsz]
  · rw [if_neg hsz]
    by_cases hlen : it.currentRange = v.ranges.length
    · rw [if_pos hlen]
      have hall : ∀ r ∈ v.ranges, r.end_index ≤ it.index :=
        (aoa_eq_length_iff hW it.index).mp (by rw [← hcur]; exact hlen)
      rw [get_eq_lookupV hW, lookupV_none_of_ge_end hall]
      rfl
    · rw [if_neg hlen]
      have hj : it.currentRange < v.ranges.length := by
        have := aoa_le_length hW it.index
        omega
      have hja : find_range_iter_at_or_after v.ranges it.index < v.ranges.length := hcur ▸ hj
      obtain ⟨hend, hpre⟩ := aoa_lt_spec hW it.index hja
      rw [← hcur] at hend hpre
      have hdecomp : v.ranges.drop it.currentRange =
          v.ranges.getD it.currentRange default :: v.ranges.drop (it.currentRange + 1) := by
        rw [getD_eq_getElem _ _ hj]
        exact (List.getElem_cons_drop v.ranges it.currentRange hj).symm
      have hlook : lookupV v.ranges it.index =
          lookupV (v.ranges.drop it.currentRange) it.index := by
        conv_lhs => rw [← List.take_append_drop it.currentRange v.ranges]
        exact lookupV_append_of_none _ (lookupV_none_of_ge_end hpre)
      rw [get_eq_lookupV hW, hlook, hdecomp, lookupV_cons]
      have hWd : WVL (v.ranges.getD it.currentRange default ::
          v.ranges.drop (it.currentRange + 1)) := by
        rw [← hdecomp]
        exact WVL_drop hW _
      by_cases hoff : it.index < (v.ranges.getD it.currentRange default).begin_index
      · rw [if_pos hoff]
        simp only [datarange_t.begin_index] at hoff
        rw [if_neg (by rw [Bool.not_eq_true, datarange_t.includes_eq_false_iff]; omega)]
        have hrest : ∀ s ∈ v.ranges.drop (it.currentRange + 1), it.index < s.offset := by
          intro s hs
          have := WVL_head_le hWd s hs
          omega
        rw [lookupV_none_of_lt_offset hrest]
        rfl
      · rw [if_neg hoff]
        simp only [datarange_t.begin_index] at hoff
        rw [if_pos (datarange_t.includes_iff.mpr ⟨by omega, hend⟩)]
        rfl

theorem inc_preserves_cached {v : sparse_vector} (h : Valid v) {it : const_iterator}
    (hcur : it.currentRange = find_range_iter_at_or_after v.ranges it.index) :
    (const_iterator.inc v it).currentRange =
      find_range_iter_at_or_after v.ranges (const_iterator.inc v it).index := by
  have hW : WVL v.ranges := SVL_toWVL h.1
  unfold const_iterator.inc
  by_cases hsz : v.size ≤ it.index
  · rw [if_pos hsz]
    exact hcur
  · rw [if_neg hsz]
    by_cases hc : it.currentRange ≠ v.ranges.length ∧
        (v.ranges.getD it.currentRange default).end_index ≤ it.index + 1
    · rw [if_pos hc]
      show it.currentRange + 1 = find_range_iter_at_or_after v.ranges (it.index + 1)
      rw [aoa_step hW it.index, ← hcur, if_pos hc]
    · rw [if_neg hc]
      show it.currentRange = find_range_iter_at_or_after v.ranges (it.index + 1)
      rw [aoa_step hW it.index, ← hcur, if_neg hc]

theorem add_preserves_cached {v : sparse_vector} (h : Valid v) {it : const_iterator}
    (hcur : it.currentRange = find_range_iter_at_or_after v.ranges it.index) (delta : Nat) :
    (const_iterator.add v it delta).currentRange =
      find_range_iter_at_or_after v.ranges (const_iterator.add v it delta).index := by
  have hW : WVL v.ranges := SVL_toWVL h.1
  unfold const_iterator.add
  by_cases h1 : delta = 1
  · rw [if_pos h1]
    exact inc_preserves_cached h hcur
  · rw [if_neg h1]
    by_cases hc : it.currentRange = v.ranges.length ∨
        ¬ (v.ranges.getD it.currentRange default).includes (it.index + delta)
    · rw [if_pos hc]
    · rw [if_neg hc]
      push_neg at hc
      obtain ⟨hne, hinc⟩ := hc
      have hlt : it.currentRange < v.ranges.length := by
        have := aoa_le_length hW it.index
        omega
      show it.currentRange = find_range_iter_at_or_after v.ranges (it.index + delta)
      rw [aoa_of_includes hW hlt (by simpa using hinc)]

/-- Every publicly obtainable iterator carries the correctly cached
range: it points to the range containing `index`, or to the first range
past it. -/
theorem iter_reach_cached {v : sparse_vector} (h : Valid v) {it : const_iterator}
    (hr : iter_reach v it) :
    it.currentRange = find_range_iter_at_or_after v.ranges it.index := by
  induction hr with
  | at_offset off => rfl
  | begin_iter => exact (aoa_zero (SVL_toWVL h.1)).symm
  | inc _ ih => exact inc_preserves_cached h ih
  | add delta _ ih => exact add_preserves_cached h ih delta

/-- Claim C10: reading (not assigning) a void cell through the mutable
`operator[]` is well-defined: for a void index `k < size()` the returned
`reference` proxy holds a null pointer, and converting it to `value_type`
yields `value_zero`, exactly as the const `operator[]` does. -/
theorem c10_mutable_index_on_void_reads_zero (v : sparse_vector) (k : Nat)
    (hk : k < v.size) (hvoid : ∀ r ∈ v.ranges, r.includes k = false) :
    v.ref_at k = none ∧ const_reference_value (v.ref_at k) = 0 ∧
      const_reference_value (v.ref_at k) = v.get k := by
  obtain ⟨h1, h2⟩ := ref_at_none_of_uncovered hvoid
  rw [h1, h2]
  exact ⟨rfl, rfl, rfl⟩

/-- Witness for C10: cell 1 of `cex_v2` (nominal size 4, ranges `[0,1)`
and `[2,4)`) is void. -/
theorem c10_mutable_index_on_void_reads_zero_witness :
    cex_v2.ref_at 1 = none ∧ const_reference_value (cex_v2.ref_at 1) = 0 :=
  ⟨(c10_mutable_index_on_void_reads_zero cex_v2 1 (by decide) (by decide)).1,
    (c10_mutable_index_on_void_reads_zero cex_v2 1 (by decide) (by decide)).2.1⟩

/-!  ### `extend` and `combine_into` value lemmas  -/

theorem replicate_pad_getD (l : List Int) (m n : Nat) :
    (l ++ List.replicate m 0).getD n 0 = l.getD n 0 := by
  by_cases h : n < l.length
  · exact getD_append_left l _ 0 n h
  · rw [getD_append_right l _ 0 n (by omega), getD_replicate,
      getD_eq_default_of_ge l 0 n (by omega)]
    split <;> rfl

theorem extend_offset (r : datarange_t) (a : Nat) (vals : List Int) :
    (r.extend a vals).offset = r.offset := rfl

theorem extend_values_length (r : datarange_t) (a : Nat) (vals : List Int) :
    (r.extend a vals).values.length =
      max ((a - r.offset) + vals.length) r.values.length := by
  simp only [datarange_t.extend, List.length_append, List.length_take, List.length_drop,
    List.length_replicate]
  omega

theorem extend_end_index (r : datarange_t) (a : Nat) (vals : List Int) (ha : r.offset ≤ a) :
    (r.extend a vals).end_index = max (a + vals.length) r.end_index := by
  simp only [datarange_t.end_index, extend_offset, extend_values_length]
  omega

theorem extend_values_ne_nil (r : datarange_t) (a : Nat) (vals : List Int)
    (h : r.values ≠ []) : (r.extend a vals).values ≠ [] := by
  have h1 := List.length_pos.mpr h
  have h2 := extend_values_length r a vals
  intro hc
  rw [hc] at h2
  simp at h2
  omega

theorem overlay_getD (X Y Z : List Int) (n : Nat) :
    ((X ++ Y) ++ Z).getD n 0 =
      if X.length ≤ n ∧ n < X.length + Y.length then Y.getD (n - X.length) 0
      else if n < X.length then X.getD n 0
      else Z.getD (n - X.length - Y.length) 0 := by
  by_cases h1 : n < X.length
  · rw [if_neg (by omega), if_pos h1,
      getD_append_left _ _ 0 n (by simp only [List.length_append]; omega),
      getD_append_left _ _ 0 n h1]
  · by_cases h2 : n < X.length + Y.length
    · rw [if_pos ⟨by omega, h2⟩,
        getD_append_left _ _ 0 n (by simp only [List.length_append]; omega),
        getD_append_right X _ 0 n (by omega)]
    · rw [if_neg (by omega), if_neg h1,
        getD_append_right _ _ 0 n (by simp only [List.length_append]; omega)]
      congr 1
      simp only [List.length_append]
      omega

theorem extend_getD (r : datarange_t) (a : Nat) (vals : List Int) (n : Nat) :
    (r.extend a vals).values.getD n 0 =
      if (a - r.offset) ≤ n ∧ n < (a - r.offset) + vals.length then
        vals.getD (n - (a - r.offset)) 0
      else r.values.getD n 0 := by
  simp only [datarange_t.extend]
  rw [overlay_getD]
  have hlenp : (r.values ++ List.replicate
      (max ((a - r.offset) + vals.length) r.values.length - r.values.length) 0).length =
      max ((a - r.offset) + vals.length) r.values.length := by
    simp only [List.length_append, List.length_replicate]
    omega
  rw [List.length_take, hlenp]
  have hm : min (a - r.offset) (max ((a - r.offset) + vals.length) r.values.length) =
      a - r.offset := by omega
  rw [hm]
  by_cases hw : (a - r.offset) ≤ n ∧ n < (a - r.offset) + vals.length
  · rw [if_pos hw, if_pos hw]
  · rw [if_neg hw, if_neg hw]
    by_cases h1 : n < a - r.offset
    · rw [if_pos h1, getD_take_lt _ _ _ _ h1, replicate_pad_getD]
    · rw [if_neg h1, getD_drop, replicate_pad_getD]
      congr 1
      omega

theorem dget_def (r : datarange_t) (i : Nat) : r.get i = r.values.getD (i - r.offset) 0 := rfl

theorem extend_lookup (r : datarange_t) (a : Nat) (vals : List Int)
    (ha1 : r.offset ≤ a) (ha2 : a ≤ r.end_index) (k : Nat) :
    lookupV [r.extend a vals] k =
      if a ≤ k ∧ k < a + vals.length then some (vals.getD (k - a) 0)
      else lookupV [r] k := by
  rw [lookupV_singleton, lookupV_singleton]
  have hend := extend_end_index r a vals ha1
  have hoff := extend_offset r a vals
  have hee := datarange_t.end_index_eq r
  by_cases hw : a ≤ k ∧ k < a + vals.length
  · rw [if_pos hw]
    rw [if_pos (datarange_t.includes_iff.mpr ⟨by omega, by omega⟩)]
    rw [dget_def, hoff, extend_getD, if_pos ⟨by omega, by omega⟩]
    have hidx : (k - r.offset) - (a - r.offset) = k - a := by omega
    rw [hidx]
  · rw [if_neg hw]
    by_cases hin : r.includes k = true
    · obtain ⟨hin1, hin2⟩ := datarange_t.includes_iff.mp hin
      rw [if_pos hin, if_pos (datarange_t.includes_iff.mpr ⟨by omega, by omega⟩)]
      rw [dget_def, dget_def, hoff, extend_getD, if_neg (by omega)]
    · obtain h01 := datarange_t.includes_eq_false_iff.mp (by simpa using hin)
      rw [if_neg hin]
      rw [if_neg ?_]
      rw [Bool.not_eq_true, datarange_t.includes_eq_false_iff, hoff, hend]
      omega

theorem combine_into_offset (r : datarange_t) (op : Int → Int → Int) (a : Nat)
    (input : List Int) : (r.combine_into op a input).offset = r.offset := rfl

theorem combine_into_length (r : datarange_t) (op : Int → Int → Int) (a : Nat)
    (input : List Int) (ha : r.offset ≤ a)
    (hlen : (a - r.offset) + input.length ≤ r.values.length) :
    (r.combine_into op a input).values.length = r.values.length := by
  simp only [datarange_t.combine_into, List.length_append, List.length_take,
    List.length_zipWith, List.length_drop]
  omega

theorem combine_into_end_index (r : datarange_t) (op : Int → Int → Int) (a : Nat)
    (input : List Int) (ha : r.offset ≤ a)
    (hlen : (a - r.offset) + input.length ≤ r.values.length) :
    (r.combine_into op a input).end_index = r.end_index := by
  simp only [datarange_t.end_index, combine_into_offset, combine_into_length r op a input ha hlen]

theorem combine_into_getD (r : datarange_t) (op : Int → Int → Int) (a : Nat)
    (input : List Int) (ha : r.offset ≤ a)
    (hlen : (a - r.offset) + input.length ≤ r.values.length) (n : Nat) :
    (r.combine_into op a input).values.getD n 0 =
      if (a - r.offset) ≤ n ∧ n < (a - r.offset) + input.length then
        op (r.values.getD n 0) (input.getD (n - (a - r.offset)) 0)
      else r.values.getD n 0 := by
  simp only [datarange_t.combine_into]
  rw [overlay_getD]
  have hX : (r.values.take (a - r.offset)).length = a - r.offset := by
    simp only [List.length_take]
    omega
  have hY : (List.zipWith op ((r.values.drop (a - r.offset)).take input.length)
      input).length = input.length := by
    simp only [List.length_zipWith, List.length_take, List.length_drop]
    omega
  rw [hX, hY]
  by_cases hw : (a - r.offset) ≤ n ∧ n < (a - r.offset) + input.length
  · rw [if_pos hw, if_pos hw]
    rw [getD_zipWith_lt _ _ _ _ _ (by simp only [List.length_take, List.length_drop]; omega)
      (by omega)]
    rw [getD_take_lt _ _ _ _ (by omega), getD_drop]
    congr 2
    omega
  · rw [if_neg hw, if_neg hw]
    by_cases h1 : n < a - r.offset
    · rw [if_pos h1, getD_take_lt _ _ _ _ h1]
    · rw [if_neg h1, getD_drop]
      congr 1
      omega

theorem combine_into_lookup (r : datarange_t) (op : Int → Int → Int) (a : Nat)
    (input : List Int) (hinc : r.includes a = true)
    (hlen : input.length ≤ r.end_index - a) (k : Nat) :
    lookupV [r.combine_into op a input] k =
      if a ≤ k ∧ k < a + input.length then
        some (op (r.get k) (input.getD (k - a) 0))
      else lookupV [r] k := by
  obtain ⟨ha1, ha2⟩ := datarange_t.includes_iff.mp hinc
  have hee := datarange_t.end_index_eq r
  have hlen' : (a - r.offset) + input.length ≤ r.values.length := by omega
  have hend := combine_into_end_index r op a input ha1 hlen'
  have hoff := combine_into_offset r op a input
  rw [lookupV_singleton, lookupV_singleton]
  by_cases hw : a ≤ k ∧ k < a + input.length
  · rw [if_pos hw]
    rw [if_pos (datarange_t.includes_iff.mpr ⟨by omega, by omega⟩)]
    rw [dget_def, dget_def, hoff, combine_into_getD r op a input ha1 hlen',
      if_pos ⟨by omega, by omega⟩]
    have hidx : (k - r.offset) - (a - r.offset) = k - a := by omega
    rw [hidx]
  · rw [if_neg hw]
    by_cases hin : r.includes k = true
    · obtain ⟨hin1, hin2⟩ := datarange_t.includes_iff.mp hin
      rw [if_pos hin, if_pos (datarange_t.includes_iff.mpr ⟨by omega, by omega⟩)]
      rw [dget_def, dget_def, hoff, combine_into_getD r op a input ha1 hlen',
        if_neg (by omega)]
    · obtain h01 := datarange_t.includes_eq_false_iff.mp (by simpa using hin)
      rw [if_neg hin, if_neg ?_]
      rw [Bool.not_eq_true, datarange_t.includes_eq_false_iff, hoff, hend]
      omega

/-!  ### `merge_ranges` lemmas  -/

theorem lookupV_cons_of_includes {r : datarange_t} {rs : List datarange_t} {k : Nat}
    (h : r.includes k = true) : lookupV (r :: rs) k = some (r.get k) := by
  rw [lookupV_cons, if_pos h]

theorem lookupV_cons_of_not {r : datarange_t} {rs : List datarange_t} {k : Nat}
    (h : r.includes k = false) : lookupV (r :: rs) k = lookupV rs k := by
  rw [lookupV_cons, if_neg (by simp [h])]

/-- One step of the merge loop preserves the observable contents: the
values of the absorbing range dominate on the overlap, exactly as the
first-containing-range lookup does. -/
theorem merge_step_lookup {r s : datarange_t} (rest' : List datarange_t)
    (hrs : r.offset < s.offset) (hb : s.offset ≤ r.end_index) (k : Nat) :
    lookupV ((if r.end_index < s.end_index then
          r.extend r.end_index (s.values.drop (r.end_index - s.offset))
        else r) :: rest') k =
      lookupV (r :: s :: rest') k := by
  have her := datarange_t.end_index_eq r
  have hes := datarange_t.end_index_eq s
  by_cases he : r.end_index < s.end_index
  · rw [if_pos he]
    have hvl : (s.values.drop (r.end_index - s.offset)).length =
        s.end_index - r.end_index := by
      simp only [List.length_drop]
      omega
    have hoffE : (r.extend r.end_index (s.values.drop (r.end_index - s.offset))).offset =
        r.offset := extend_offset _ _ _
    have hendE : (r.extend r.end_index (s.values.drop (r.end_index - s.offset))).end_index =
        s.end_index := by
      rw [extend_end_index _ _ _ (datarange_t.offset_le_end r), hvl]
      omega
    by_cases h1 : k < r.offset
    · rw [lookupV_cons_of_not (datarange_t.includes_eq_false_iff.mpr
          (by rw [hoffE]; omega)),
        lookupV_cons_of_not (datarange_t.includes_eq_false_iff.mpr (by omega)),
        lookupV_cons_of_not (datarange_t.includes_eq_false_iff.mpr (by omega))]
    · by_cases h2 : k < r.end_index
      · rw [lookupV_cons_of_includes (datarange_t.includes_iff.mpr
            ⟨by rw [hoffE]; omega, by rw [hendE]; omega⟩),
          lookupV_cons_of_includes (datarange_t.includes_iff.mpr ⟨by omega, h2⟩)]
        rw [dget_def, dget_def, hoffE, extend_getD, if_neg (by omega)]
      · by_cases h3 : k < s.end_index
        · rw [lookupV_cons_of_includes (datarange_t.includes_iff.mpr
              ⟨by rw [hoffE]; omega, by rw [hendE]; omega⟩),
            lookupV_cons_of_not (datarange_t.includes_eq_false_iff.mpr (by omega)),
            lookupV_cons_of_includes (datarange_t.includes_iff.mpr ⟨by omega, h3⟩)]
          rw [dget_def, dget_def, hoffE, extend_getD, if_pos ⟨by omega, by omega⟩,
            getD_drop]
          have hidx : r.end_index - s.offset + (k - r.offset - (r.end_index - r.offset)) =
              k - s.offset := by omega
          rw [hidx]
        · rw [lookupV_cons_of_not (datarange_t.includes_eq_false_iff.mpr
              (by rw [hendE]; omega)),
            lookupV_cons_of_not (datarange_t.includes_eq_false_iff.mpr (by omega)),
            lookupV_cons_of_not (datarange_t.includes_eq_false_iff.mpr (by omega))]
  · rw [if_neg he]
    by_cases hin : r.includes k = true
    · rw [lookupV_cons_of_includes hin, lookupV_cons_of_includes hin]
    · have hin' := datarange_t.includes_eq_false_iff.mp (by simpa using hin)
      rw [lookupV_cons_of_not (by simpa using hin),
        lookupV_cons_of_not (by simpa using hin),
        lookupV_cons_of_not (datarange_t.includes_eq_false_iff.mpr (by omega))]

/-- The merge loop: keeps the absorbing range's offset, keeps it
non-empty, consumes a prefix of the following ranges, leaves a strict gap
to the first unconsumed range, and preserves the observable contents. -/
theorem merge_ranges_loop_spec (r : datarange_t) (rest : List datarange_t)
    (h1 : r.values ≠ []) (h2 : ∀ s ∈ rest, r.offset < s.offset) (h3 : WVL rest) :
    (merge_ranges_loop r rest).1.offset = r.offset ∧
    (merge_ranges_loop r rest).1.values ≠ [] ∧
    (∃ n, (merge_ranges_loop r rest).2 = rest.drop n) ∧
    (∀ s ∈ (merge_ranges_loop r rest).2.head?,
      (merge_ranges_loop r rest).1.end_index < s.offset) ∧
    (∀ k, lookupV ((merge_ranges_loop r rest).1 :: (merge_ranges_loop r rest).2) k =
      lookupV (r :: rest) k) := by
  induction rest generalizing r with
  | nil =>
    refine ⟨rfl, h1, ⟨0, rfl⟩, by simp [merge_ranges_loop], fun k => rfl⟩
  | cons s rest' ih =>
    have hso : r.offset < s.offset := h2 s (by simp)
    by_cases hb : r.borders s.begin_index
    · obtain ⟨hb1, hb2⟩ := datarange_t.borders_iff.mp hb
      simp only [datarange_t.begin_index] at hb2
      have hstep : merge_ranges_loop r (s :: rest') =
          merge_ranges_loop (if r.end_index < s.end_index then
            r.extend r.end_index (s.values.drop (r.end_index - s.offset)) else r) rest' := by
        simp only [merge_ranges_loop]
        rw [if_pos hb]
      have hoffE : (if r.end_index < s.end_index then
          r.extend r.end_index (s.values.drop (r.end_index - s.offset)) else r).offset =
          r.offset := by
        split
        · exact extend_offset _ _ _
        · rfl
      have hneE : (if r.end_index < s.end_index then
          r.extend r.end_index (s.values.drop (r.end_index - s.offset)) else r).values ≠ [] := by
        split
        · exact extend_values_ne_nil _ _ _ h1
        · exact h1
      have h2' : ∀ u ∈ rest', (if r.end_index < s.end_index then
          r.extend r.end_index (s.values.drop (r.end_index - s.offset)) else r).offset <
          u.offset := by
        intro u hu
        rw [hoffE]
        exact h2 u (by simp [hu])
      obtain ⟨c1, c2, ⟨n, c3⟩, c4, c5⟩ := ih _ hneE h2' (WVL_tail h3)
      rw [hstep]
      refine ⟨by rw [c1, hoffE], c2, ⟨n + 1, by simpa using c3⟩, c4, ?_⟩
      intro k
      rw [c5 k, merge_step_lookup rest' hso hb2 k]
    · have hgap : r.end_index < s.offset := by
        have := datarange_t.includes_eq_false_iff (r := r) (i := s.begin_index)
        have hb' : ¬ (r.offset ≤ s.begin_index ∧ s.begin_index ≤ r.end_index) := by
          rw [← datarange_t.borders_iff]
          simp [hb]
        simp only [datarange_t.begin_index] at hb'
        omega
      have hstep : merge_ranges_loop r (s :: rest') = (r, s :: rest') := by
        simp only [merge_ranges_loop]
        rw [if_neg (by simp [hb])]
      rw [hstep]
      refine ⟨rfl, h1, ⟨0, rfl⟩, ?_, fun k => rfl⟩
      intro u hu
      simp only [List.head?_cons, Option.mem_def, Option.some.injEq] at hu
      subst hu
      exact hgap

theorem drop_eq_getD_cons {rs : List datarange_t} {i : Nat} (h : i < rs.length) :
    rs.drop i = rs.getD i default :: rs.drop (i + 1) := by
  rw [getD_eq_getElem _ _ h]
  exact (List.getElem_cons_drop rs i h).symm

theorem fix_size_ranges (v : sparse_vector) : (fix_size v).ranges = v.ranges := by
  unfold fix_size
  cases h : v.ranges.getLast? <;> rfl

theorem fix_size_nominal (v : sparse_vector) :
    (fix_size v).nominal_size =
      if v.ranges = [] then v.nominal_size else max v.nominal_size (lastEnd v.ranges) := by
  unfold fix_size
  cases h : v.ranges.getLast? with
  | none =>
    rw [if_pos (by simpa using List.getLast?_eq_none_iff.mp h)]
  | some r =>
    have hne : v.ranges ≠ [] := by
      intro hc
      rw [hc] at h
      simp at h
    rw [if_neg hne]
    simp [lastEnd, h]

theorem merge_ranges_nominal (v : sparse_vector) (p : Nat) :
    (merge_ranges v p).nominal_size =
      if (merge_ranges v p).ranges = [] then v.nominal_size
      else max v.nominal_size (lastEnd (merge_ranges v p).ranges) := by
  unfold merge_ranges
  split
  · rw [fix_size_nominal, fix_size_ranges]
  · rw [fix_size_nominal, fix_size_ranges]

/-- `merge_ranges` at any position of a canonical list does not change
the range list at all (the loop stops at once on the strict gap). -/
theorem merge_ranges_ranges_of_SVL {v : sparse_vector} (h : SVL v.ranges) (p : Nat) :
    (merge_ranges v p).ranges = v.ranges := by
  unfold merge_ranges
  split
  · next hp =>
    rw [fix_size_ranges]
    have hdecomp := drop_eq_getD_cons hp
    have hstop : merge_ranges_loop (v.ranges.getD p default) (v.ranges.drop (p + 1)) =
        (v.ranges.getD p default, v.ranges.drop (p + 1)) := by
      cases hd : v.ranges.drop (p + 1) with
      | nil => rfl
      | cons s rest =>
        have hW : SVL (v.ranges.getD p default :: s :: rest) := by
          rw [← hd, ← hdecomp]
          exact SVL_drop h p
        have hgap : (v.ranges.getD p default).end_index < s.offset :=
          (SVL_cons_iff.mp hW).2.1 s (by simp)
        simp only [merge_ranges_loop]
        rw [if_neg ?_]
        rw [datarange_t.borders_iff]
        simp only [datarange_t.begin_index]
        omega
    rw [hstop]
    simp only []
    rw [← hdecomp, List.take_append_drop]
  · exact fix_size_ranges v

/-- `merge_ranges` on a weakly canonical list: the result is weakly
canonical and the observable contents are unchanged. -/
theorem merge_ranges_WVL_spec {v : sparse_vector} (h : WVL v.ranges) (p : Nat) :
    WVL (merge_ranges v p).ranges ∧
    (∀ k, lookupV (merge_ranges v p).ranges k = lookupV v.ranges k) := by
  unfold merge_ranges
  split
  · next hp =>
    rw [fix_size_ranges]
    have hdecomp := drop_eq_getD_cons hp
    have hWd : WVL (v.ranges.getD p default :: v.ranges.drop (p + 1)) := by
      rw [← hdecomp]
      exact WVL_drop h p
    obtain ⟨hdne, hdlink, hdtail⟩ := WVL_cons_iff.mp hWd
    have h2 : ∀ s ∈ v.ranges.drop (p + 1), (v.ranges.getD p default).offset < s.offset := by
      intro s hs
      have h1 := WVL_head_le hWd s hs
      have h0 := datarange_t.offset_lt_end hdne
      omega
    obtain ⟨c1, c2, ⟨n, c3⟩, c4, c5⟩ :=
      merge_ranges_loop_spec (v.ranges.getD p default) (v.ranges.drop (p + 1)) hdne h2 hdtail
    constructor
    · constructor
      · intro r hr
        rcases List.mem_append.mp hr with hr | hr
        · exact h.1 r (List.mem_of_mem_take hr)
        · rcases List.mem_cons.mp hr with rfl | hr
          · exact c2
          · rw [c3] at hr
            exact h.1 r (List.mem_of_mem_drop (List.mem_of_mem_drop hr))
      · rw [List.chain'_append]
        refine ⟨(WVL_take h p).2, ?_, ?_⟩
        · rw [List.chain'_cons']
          refine ⟨fun y hy => le_of_lt (c4 y hy), ?_⟩
          rw [c3]
          exact hdtail.2.drop n
        · intro x hx y hy
          simp only [List.head?_cons, Option.mem_def, Option.some.injEq] at hy
          subst hy
          rw [c1]
          have horig := h.2
          conv at horig => rw [← List.take_append_drop p v.ranges]
          rw [List.chain'_append] at horig
          have := horig.2.2 x hx
          apply this
          rw [hdecomp]
          simp
    · intro k
      rcases ho : lookupV (v.ranges.take p) k with _ | x
      · rw [lookupV_append_of_none _ ho, c5 k, ← hdecomp]
        conv_rhs => rw [← List.take_append_drop p v.ranges]
        rw [lookupV_append_of_none _ ho]
      · rw [lookupV_append_of_some _ ho]
        conv_rhs => rw [← List.take_append_drop p v.ranges]
        rw [lookupV_append_of_some _ ho]
  · rw [fix_size_ranges]
    exact ⟨h, fun k => rfl⟩

/-!  ### Structural helpers for `add_range` and `combine_range`  -/

theorem mem_of_getLast?_eq {α : Type} (l : List α) (x : α) (h : l.getLast? = some x) :
    x ∈ l := by
  cases l with
  | nil => simp at h
  | cons a t =>
    have hne : (a :: t) ≠ [] := by simp
    rw [List.getLast?_eq_getLast _ hne] at h
    injection h with h
    rw [← h]
    exact List.getLast_mem hne

theorem insertIdx_eq_take_cons_drop {α : Type} (l : List α) (i : Nat) (x : α)
    (h : i ≤ l.length) : l.insertIdx i x = l.take i ++ x :: l.drop i := by
  induction l generalizing i with
  | nil =>
    have : i = 0 := by simpa using h
    subst this
    rfl
  | cons a t ih =>
    cases i with
    | zero => rfl
    | succ i =>
      rw [List.insertIdx_succ_cons, ih i (by simpa using h)]
      rfl

theorem take_append_cons (A : List datarange_t) (x : datarange_t) (B : List datarange_t) :
    (A ++ x :: B).take A.length = A := List.take_left A (x :: B)

theorem getD_append_cons (A : List datarange_t) (x : datarange_t) (B : List datarange_t) :
    (A ++ x :: B).getD A.length default = x := by
  rw [getD_append_right A _ default A.length (le_refl _)]
  simp

theorem drop_append_cons (A : List datarange_t) (x : datarange_t) (B : List datarange_t) :
    (A ++ x :: B).drop (A.length + 1) = B := by
  have h1 : (A ++ x :: B).drop (A.length + 1) = ((A ++ x :: B).drop A.length).drop 1 := by
    rw [List.drop_drop]
  rw [h1, List.drop_left]
  rfl

theorem length_append_cons (A : List datarange_t) (x : datarange_t) (B : List datarange_t) :
    (A ++ x :: B).length = A.length + B.length + 1 := by
  simp only [List.length_append, List.length_cons]
  omega

theorem SVL_append_before {A : List datarange_t} {b : datarange_t} {B : List datarange_t}
    (h : SVL (A ++ b :: B)) : ∀ a ∈ A, a.end_index < b.offset := by
  induction A with
  | nil => simp
  | cons a t ih =>
    intro x hx
    rcases List.mem_cons.mp hx with rfl | hxt
    · exact SVL_head_lt h b (by simp)
    · exact ih (SVL_tail h) x hxt

theorem fnr_prev_offset_le {rs : List datarange_t} {k : Nat}
    (h : find_next_range_iter rs k ≠ 0) :
    (rs.getD (find_next_range_iter rs k - 1) default).offset ≤ k := by
  induction rs with
  | nil => simp [fnr_nil] at h
  | cons r t ih =>
    rw [fnr_cons] at h ⊢
    by_cases h0 : k < r.offset
    · rw [if_pos h0] at h
      simp at h
    · rw [if_neg h0] at h ⊢
      rcases Nat.eq_zero_or_pos (find_next_range_iter t k) with hf | hf
      · rw [hf]
        simp
        omega
      · obtain ⟨j, hj⟩ := Nat.exists_eq_succ_of_ne_zero (by omega : find_next_range_iter t k ≠ 0)
        rw [hj]
        have := ih (by omega)
        rw [hj] at this
        simpa using this

theorem fnr_drop_gt {rs : List datarange_t} (h : WVL rs) (k : Nat) :
    ∀ r ∈ rs.drop (find_next_range_iter rs k), k < r.offset := by
  induction rs with
  | nil => simp
  | cons r t ih =>
    rw [fnr_cons]
    by_cases h0 : k < r.offset
    · rw [if_pos h0]
      intro s hs
      simp only [List.drop_zero] at hs
      rcases List.mem_cons.mp hs with rfl | hst
      · exact h0
      · have h1 := WVL_head_le h s hst
        have h2 := datarange_t.offset_lt_end ((WVL_cons_iff.mp h).1)
        omega
    · rw [if_neg h0]
      intro s hs
      rw [List.drop_succ_cons] at hs
      exact ih (WVL_tail h) s hs

theorem take_getLast? {rs : List datarange_t} {i : Nat} (h0 : i ≠ 0) (h1 : i ≤ rs.length) :
    (rs.take i).getLast? = some (rs.getD (i - 1) default) := by
  have hlen : (rs.take i).length = i := by
    simp only [List.length_take]
    omega
  have hne : rs.take i ≠ [] := by
    intro hc
    rw [hc] at hlen
    simp at hlen
    omega
  rw [List.getLast?_eq_getLast _ hne]
  congr 1
  rw [List.getLast_eq_getElem]
  rw [getD_eq_getElem _ _ (by omega)]
  simp only [hlen]
  rw [List.getElem_take]

/-- Replacing the head by one with the same per-cell contents preserves
the list lookup. -/
theorem lookupV_cons_congr {r r' : datarange_t} (B : List datarange_t) {k : Nat}
    (h : lookupV [r'] k = lookupV [r] k) :
    lookupV (r' :: B) k = lookupV (r :: B) k := by
  rw [lookupV_singleton, lookupV_singleton] at h
  rw [lookupV_cons, lookupV_cons]
  by_cases h1 : r'.includes k = true
  · rw [if_pos h1] at h ⊢
    by_cases h2 : r.includes k = true
    · rw [if_pos h2] at h ⊢
      exact h
    · rw [if_neg h2] at h
      simp at h
  · rw [if_neg h1] at h ⊢
    by_cases h2 : r.includes k = true
    · rw [if_pos h2] at h
      simp at h
    · rw [if_neg h2] at h ⊢

/-- Splicing a range into a canonical list at its sorted position and
merging forward: the result is canonical again and realizes the
first-containing-range lookup of the spliced list. -/
theorem merge_at_strict_spec (N : Nat) (A : List datarange_t) (rnew : datarange_t)
    (B : List datarange_t) (hA : SVL A) (hB : SVL B)
    (hlinkA : ∀ a ∈ A, a.end_index < rnew.offset)
    (hne : rnew.values ≠ [])
    (hAB : ∀ b ∈ B, rnew.offset < b.offset) :
    SVL (merge_ranges ⟨N, A ++ rnew :: B⟩ A.length).ranges ∧
    (∀ k, lookupV (merge_ranges ⟨N, A ++ rnew :: B⟩ A.length).ranges k =
      lookupV (A ++ rnew :: B) k) := by
  obtain ⟨c1, c2, ⟨n, c3⟩, c4, c5⟩ := merge_ranges_loop_spec rnew B hne hAB (SVL_toWVL hB)
  have hplen : A.length < (A ++ rnew :: B).length := by
    rw [length_append_cons]
    omega
  have hres : (merge_ranges ⟨N, A ++ rnew :: B⟩ A.length).ranges =
      A ++ (merge_ranges_loop rnew B).1 :: (merge_ranges_loop rnew B).2 := by
    unfold merge_ranges
    rw [if_pos hplen, fix_size_ranges]
    simp only [getD_append_cons, take_append_cons, drop_append_cons]
  rw [hres]
  constructor
  · constructor
    · intro r hr
      rcases List.mem_append.mp hr with hr | hr
      · exact hA.1 r hr
      · rcases List.mem_cons.mp hr with rfl | hr
        · exact c2
        · rw [c3] at hr
          exact hB.1 r (List.mem_of_mem_drop hr)
    · rw [List.chain'_append]
      refine ⟨hA.2, ?_, ?_⟩
      · rw [List.chain'_cons']
        refine ⟨c4, ?_⟩
        rw [c3]
        exact hB.2.drop n
      · intro x hx y hy
        simp only [List.head?_cons, Option.mem_def, Option.some.injEq] at hy
        subst hy
        rw [c1]
        exact hlinkA x (mem_of_getLast?_eq _ _ hx)
  · intro k
    rcases ho : lookupV A k with _ | x
    · rw [lookupV_append_of_none _ ho, lookupV_append_of_none _ ho, c5 k]
    · rw [lookupV_append_of_some _ ho, lookupV_append_of_some _ ho]

/-!  ### `add_range`: contents and canonical form  -/

/-- `add_range`: the result is canonical, its contents are the input data
overlaid on the window `[offset, offset + |data|)`, and the nominal size
is the fix-up from the final last range. -/
theorem add_range_spec {v : sparse_vector} (h : Valid v) (o : Nat) (data : List Int) :
    SVL (v.add_range o data).ranges ∧
    (∀ k, lookupV (v.add_range o data).ranges k =
      if o ≤ k ∧ k < o + data.length then some (data.getD (k - o) 0)
      else lookupV v.ranges k) ∧
    (v.add_range o data).nominal_size =
      (if (v.add_range o data).ranges = [] then v.nominal_size
       else max v.nominal_size (lastEnd (v.add_range o data).ranges)) := by
  have hS : SVL v.ranges := h.1
  have hW : WVL v.ranges := SVL_toWVL hS
  have hfle := fnr_le_length v.ranges o
  unfold add_range
  by_cases hc : find_next_range_iter v.ranges o ≠ 0 ∧
      (v.ranges.getD (find_next_range_iter v.ranges o - 1) default).borders o
  · rw [if_pos hc]
    obtain ⟨hi0, hbord⟩ := hc
    obtain ⟨hb1, hb2⟩ := datarange_t.borders_iff.mp hbord
    have him1 : find_next_range_iter v.ranges o - 1 < v.ranges.length := by omega
    have harith : find_next_range_iter v.ranges o - 1 + 1 = find_next_range_iter v.ranges o := by
      omega
    have hdec : v.ranges = v.ranges.take (find_next_range_iter v.ranges o - 1) ++
        v.ranges.getD (find_next_range_iter v.ranges o - 1) default ::
          v.ranges.drop (find_next_range_iter v.ranges o) := by
      conv_lhs => rw [← List.take_append_drop (find_next_range_iter v.ranges o - 1) v.ranges]
      rw [drop_eq_getD_cons him1, harith]
    have hL0 : v.ranges.set (find_next_range_iter v.ranges o - 1)
        ((v.ranges.getD (find_next_range_iter v.ranges o - 1) default).extend o data) =
        v.ranges.take (find_next_range_iter v.ranges o - 1) ++
          (v.ranges.getD (find_next_range_iter v.ranges o - 1) default).extend o data ::
            v.ranges.drop (find_next_range_iter v.ranges o) := by
      rw [List.set_eq_take_append_cons_drop, if_pos him1, harith]
    have hAlen : (v.ranges.take (find_next_range_iter v.ranges o - 1)).length =
        find_next_range_iter v.ranges o - 1 := by
      simp only [List.length_take]
      omega
    have hA : SVL (v.ranges.take (find_next_range_iter v.ranges o - 1)) := SVL_take hS _
    have hB : SVL (v.ranges.drop (find_next_range_iter v.ranges o)) := SVL_drop hS _
    have hSdec : SVL (v.ranges.take (find_next_range_iter v.ranges o - 1) ++
        v.ranges.getD (find_next_range_iter v.ranges o - 1) default ::
          v.ranges.drop (find_next_range_iter v.ranges o)) := by
      rw [← hdec]
      exact hS
    have hprevne : (v.ranges.getD (find_next_range_iter v.ranges o - 1) default).values ≠ [] := by
      apply hS.1
      rw [getD_eq_getElem _ _ him1]
      exact List.getElem_mem _
    have hSdrop : SVL (v.ranges.getD (find_next_range_iter v.ranges o - 1) default ::
        v.ranges.drop (find_next_range_iter v.ranges o)) := by
      have := SVL_drop hS (find_next_range_iter v.ranges o - 1)
      rwa [drop_eq_getD_cons him1, harith] at this
    have hlinkA : ∀ a ∈ v.ranges.take (find_next_range_iter v.ranges o - 1),
        a.end_index <
          ((v.ranges.getD (find_next_range_iter v.ranges o - 1) default).extend o data).offset := by
      intro a ha
      rw [extend_offset]
      exact SVL_append_before hSdec a ha
    have hne : ((v.ranges.getD (find_next_range_iter v.ranges o - 1) default).extend
        o data).values ≠ [] := extend_values_ne_nil _ _ _ hprevne
    have hAB : ∀ b ∈ v.ranges.drop (find_next_range_iter v.ranges o),
        ((v.ranges.getD (find_next_range_iter v.ranges o - 1) default).extend
          o data).offset < b.offset := by
      intro b hb
      rw [extend_offset]
      have hp1 := datarange_t.offset_lt_end hprevne
      have := SVL_head_lt hSdrop b hb
      omega
    have hmerge := merge_at_strict_spec v.nominal_size
      (v.ranges.take (find_next_range_iter v.ranges o - 1))
      ((v.ranges.getD (find_next_range_iter v.ranges o - 1) default).extend o data)
      (v.ranges.drop (find_next_range_iter v.ranges o)) hA hB hlinkA hne hAB
    rw [hAlen] at hmerge
    simp only []
    rw [hL0]
    refine ⟨hmerge.1, ?_, merge_ranges_nominal _ _⟩
    intro k
    rw [hmerge.2 k]
    have hext := extend_lookup (v.ranges.getD (find_next_range_iter v.ranges o - 1) default)
      o data hb1 hb2 k
    by_cases hwin : o ≤ k ∧ k < o + data.length
    · rw [if_pos hwin]
      have hAnone : lookupV (v.ranges.take (find_next_range_iter v.ranges o - 1)) k = none := by
        apply lookupV_none_of_ge_end
        intro a ha
        have h1 := SVL_append_before hSdec a ha
        omega
      rw [lookupV_append_of_none _ hAnone]
      rw [if_pos hwin] at hext
      exact lookupV_append_of_some _ hext
    · rw [if_neg hwin]
      rw [if_neg hwin] at hext
      conv_rhs => rw [hdec]
      rcases hAk : lookupV (v.ranges.take (find_next_range_iter v.ranges o - 1)) k with _ | x
      · rw [lookupV_append_of_none _ hAk, lookupV_append_of_none _ hAk]
        exact lookupV_cons_congr _ hext
      · rw [lookupV_append_of_some _ hAk, lookupV_append_of_some _ hAk]
  · rw [if_neg hc]
    by_cases hde : data.isEmpty
    · rw [if_pos hde]
      have hdnil : data = [] := by simpa using hde
      have hr := merge_ranges_ranges_of_SVL hS (find_next_range_iter v.ranges o)
      refine ⟨by rw [hr]; exact hS, ?_, merge_ranges_nominal _ _⟩
      intro k
      rw [hr, hdnil]
      rw [if_neg (by simp only [List.length_nil]; omega)]
    · rw [if_neg hde]
      have hdne : data ≠ [] := by simpa using hde
      have hins : v.ranges.insertIdx (find_next_range_iter v.ranges o)
          (⟨o, data⟩ : datarange_t) =
          v.ranges.take (find_next_range_iter v.ranges o) ++
            (⟨o, data⟩ : datarange_t) :: v.ranges.drop (find_next_range_iter v.ranges o) :=
        insertIdx_eq_take_cons_drop _ _ _ hfle
      have hAlen : (v.ranges.take (find_next_range_iter v.ranges o)).length =
          find_next_range_iter v.ranges o := by
        simp only [List.length_take]
        omega
      have hA : SVL (v.ranges.take (find_next_range_iter v.ranges o)) := SVL_take hS _
      have hB : SVL (v.ranges.drop (find_next_range_iter v.ranges o)) := SVL_drop hS _
      have hlinkA : ∀ a ∈ v.ranges.take (find_next_range_iter v.ranges o),
          a.end_index < (⟨o, data⟩ : datarange_t).offset := by
        intro a ha
        show a.end_index < o
        rcases Nat.eq_zero_or_pos (find_next_range_iter v.ranges o) with hi0 | hip
        · rw [hi0] at ha
          simp at ha
        · have hi0' : find_next_range_iter v.ranges o ≠ 0 := by omega
          have hprevle : (v.ranges.getD (find_next_range_iter v.ranges o - 1) default).offset ≤
              o := fnr_prev_offset_le hi0'
          have hnb : ¬ (v.ranges.getD (find_next_range_iter v.ranges o - 1) default).borders
              o = true := fun hb => hc ⟨hi0', hb⟩
          rw [datarange_t.borders_iff] at hnb
          push_neg at hnb
          have hpe : (v.ranges.getD (find_next_range_iter v.ranges o - 1) default).end_index <
              o := hnb hprevle
          have hWt : WVL (v.ranges.take (find_next_range_iter v.ranges o)) := SVL_toWVL hA
          have hle := end_le_lastEnd hWt a ha
          have hlast : lastEnd (v.ranges.take (find_next_range_iter v.ranges o)) =
              (v.ranges.getD (find_next_range_iter v.ranges o - 1) default).end_index := by
            unfold lastEnd
            rw [take_getLast? hi0' hfle]
          omega
      have hAB : ∀ b ∈ v.ranges.drop (find_next_range_iter v.ranges o),
          (⟨o, data⟩ : datarange_t).offset < b.offset := by
        intro b hb
        exact fnr_drop_gt hW o b hb
      have hmerge := merge_at_strict_spec v.nominal_size
        (v.ranges.take (find_next_range_iter v.ranges o)) ⟨o, data⟩
        (v.ranges.drop (find_next_range_iter v.ranges o)) hA hB hlinkA hdne hAB
      rw [hAlen] at hmerge
      rw [hins]
      refine ⟨hmerge.1, ?_, merge_ranges_nominal _ _⟩
      intro k
      rw [hmerge.2 k]
      by_cases hwin : o ≤ k ∧ k < o + data.length
      · rw [if_pos hwin]
        have hAnone : lookupV (v.ranges.take (find_next_range_iter v.ranges o)) k = none := by
          apply lookupV_none_of_ge_end
          intro a ha
          have := hlinkA a ha
          simp only [] at this
          omega
        rw [lookupV_append_of_none _ hAnone, lookupV_cons_of_includes
          (datarange_t.includes_iff.mpr ⟨hwin.1, by
            simp only [datarange_t.end_index]
            omega⟩)]
        rfl
      · rw [if_neg hwin]
        conv_rhs => rw [← List.take_append_drop (find_next_range_iter v.ranges o) v.ranges]
        rcases hAk : lookupV (v.ranges.take (find_next_range_iter v.ranges o)) k with _ | x
        · rw [lookupV_append_of_none _ hAk, lookupV_append_of_none _ hAk]
          rw [lookupV_cons_of_not (datarange_t.includes_eq_false_iff.mpr (by
            simp only [datarange_t.end_index]
            omega))]
        · rw [lookupV_append_of_some _ hAk, lookupV_append_of_some _ hAk]

/-- `add_range` preserves the full container invariant. -/
theorem add_range_Valid {v : sparse_vector} (h : Valid v) (o : Nat) (data : List Int) :
    Valid (v.add_range o data) := by
  obtain ⟨hS, hlook, hN⟩ := add_range_spec h o data
  refine ⟨hS, ?_⟩
  rw [hN]
  by_cases he : (v.add_range o data).ranges = []
  · rw [if_pos he, he]
    simp [lastEnd_nil]
  · rw [if_neg he]
    exact le_max_right _ _

/-!  ### `combine_range`: unfolding equations for the main loop  -/

/-- Loop equation: no fuel. -/
theorem crl_zero_fuel (op : Int → Int → Int) (w : Int) (src : List Int) (offset : Nat)
    (rs : List datarange_t) : combine_range_loop op w 0 src offset rs = rs := rfl

/-- Loop equation: input exhausted. -/
theorem crl_nil_src (op : Int → Int → Int) (w : Int) (fuel : Nat) (offset : Nat)
    (rs : List datarange_t) : combine_range_loop op w (fuel + 1) [] offset rs = rs := rfl

/-- Loop equation, step (1), input fits inside the current range. -/
theorem crl_exhaust (op : Int → Int → Int) (w : Int) (fuel : Nat) (s : Int) (src : List Int)
    (offset : Nat) (r : datarange_t) (rest : List datarange_t)
    (hinc : r.includes offset = true) (hle : (s :: src).length ≤ r.end_index - offset) :
    combine_range_loop op w (fuel + 1) (s :: src) offset (r :: rest) =
      r.combine_into op offset (s :: src) :: rest := by
  simp only [combine_range_loop, List.headD_cons, List.tail_cons]
  rw [if_pos ⟨List.cons_ne_nil r rest, hinc⟩, if_pos hle]

/-- Loop equation, step (1), range full and no further range: the rest of
the input becomes one new range starting at `r.end_index`. -/
theorem crl_full_nil (op : Int → Int → Int) (w : Int) (fuel : Nat) (s : Int) (src : List Int)
    (offset : Nat) (r : datarange_t)
    (hinc : r.includes offset = true) (hgt : r.end_index - offset < (s :: src).length) :
    combine_range_loop op w (fuel + 1) (s :: src) offset [r] =
      [r.combine_into op offset ((s :: src).take (r.end_index - offset)),
       ⟨r.end_index, ((s :: src).drop (r.end_index - offset)).map (fun x => op w x)⟩] := by
  simp only [combine_range_loop, List.headD_cons, List.tail_cons]
  rw [if_pos ⟨List.cons_ne_nil r [], hinc⟩, if_neg (by omega)]
  have hlen : ((s :: src).drop (r.end_index - offset)).length ≠ 0 := by
    rw [List.length_drop]
    omega
  rw [if_neg (by simpa using hlen)]
  simp only [Nat.min_self, List.take_length, List.drop_length]
  cases fuel <;> rfl

/-- Loop equation, step (1), range full, with a following range. -/
theorem crl_full_cons (op : Int → Int → Int) (w : Int) (fuel : Nat) (s : Int) (src : List Int)
    (offset : Nat) (r r2 : datarange_t) (rest2 : List datarange_t)
    (hinc : r.includes offset = true) (hgt : r.end_index - offset < (s :: src).length)
    (hm : min (r2.begin_index - r.end_index)
      ((s :: src).drop (r.end_index - offset)).length ≠ 0) :
    combine_range_loop op w (fuel + 1) (s :: src) offset (r :: r2 :: rest2) =
      r.combine_into op offset ((s :: src).take (r.end_index - offset)) ::
        (⟨r.end_index, (((s :: src).drop (r.end_index - offset)).take
            (min (r2.begin_index - r.end_index)
              ((s :: src).drop (r.end_index - offset)).length)).map
            (fun x => op w x)⟩ : datarange_t) ::
        combine_range_loop op w fuel
          (((s :: src).drop (r.end_index - offset)).drop
            (min (r2.begin_index - r.end_index)
              ((s :: src).drop (r.end_index - offset)).length))
          (r.end_index + min (r2.begin_index - r.end_index)
            ((s :: src).drop (r.end_index - offset)).length)
          (r2 :: rest2) := by
  simp only [combine_range_loop, List.headD_cons, List.tail_cons]
  rw [if_pos ⟨List.cons_ne_nil r (r2 :: rest2), hinc⟩, if_neg (by omega), if_neg hm]

/-- Loop equation, step (2), no range at all: the whole input becomes one
new range at `offset`. -/
theorem crl_void_nil (op : Int → Int → Int) (w : Int) (fuel : Nat) (s : Int) (src : List Int)
    (offset : Nat) :
    combine_range_loop op w (fuel + 1) (s :: src) offset [] =
      [⟨offset, (s :: src).map (fun x => op w x)⟩] := by
  simp only [combine_range_loop]
  rw [if_neg (by simp)]
  rw [if_neg (by simp)]
  simp only [Nat.min_self, List.take_length, List.drop_length]
  cases fuel <;> rfl

/-- Loop equation, step (2), `offset` in the void before the next range. -/
theorem crl_void_cons (op : Int → Int → Int) (w : Int) (fuel : Nat) (s : Int) (src : List Int)
    (offset : Nat) (r2 : datarange_t) (rest2 : List datarange_t)
    (hni : r2.includes offset = false)
    (hm : min (r2.begin_index - offset) (s :: src).length ≠ 0) :
    combine_range_loop op w (fuel + 1) (s :: src) offset (r2 :: rest2) =
      (⟨offset, ((s :: src).take (min (r2.begin_index - offset) (s :: src).length)).map
          (fun x => op w x)⟩ : datarange_t) ::
        combine_range_loop op w fuel
          ((s :: src).drop (min (r2.begin_index - offset) (s :: src).length))
          (offset + min (r2.begin_index - offset) (s :: src).length) (r2 :: rest2) := by
  simp only [combine_range_loop, List.headD_cons, List.tail_cons]
  rw [if_neg (by simp [hni]), if_neg hm]

/-- `combine_into` keeps the buffer non-empty. -/
theorem combine_into_values_ne_nil (r : datarange_t) (op : Int → Int → Int) (a : Nat)
    (input : List Int) (h : r.values ≠ []) (ha : r.offset ≤ a)
    (hlen : (a - r.offset) + input.length ≤ r.values.length) :
    (r.combine_into op a input).values ≠ [] := by
  intro hc
  have hl := combine_into_length r op a input ha hlen
  rw [hc] at hl
  simp only [List.length_nil] at hl
  exact h (List.length_eq_zero.mp hl.symm)

/-- Main loop of `combine_range`: under the canonical-form precondition
(`rs` canonical, `offset` before the end of its first range — the state
the caller establishes through `find_range_iter_at_or_after`), the loop
returns non-empty ranges, weakly chained, all starting at or after any
common lower bound of `offset` and the old offsets; its contents are, on
the window `[offset, offset + |src|)`, `op` of the old value (with
`void_value` where void) and the input, and elsewhere unchanged. -/
theorem combine_range_loop_spec (op : Int → Int → Int) (w : Int) :
    ∀ (fuel : Nat) (src : List Int) (offset : Nat) (rs : List datarange_t),
    src.length < fuel → SVL rs →
    (rs = [] ∨ offset < (rs.headD default).end_index) →
    (∀ t ∈ combine_range_loop op w fuel src offset rs, t.values ≠ []) ∧
    List.Chain' (fun a b => a.end_index ≤ b.offset) (combine_range_loop op w fuel src offset rs) ∧
    (∀ lb, lb ≤ offset → (∀ r ∈ rs, lb ≤ r.offset) →
      ∀ t ∈ combine_range_loop op w fuel src offset rs, lb ≤ t.offset) ∧
    (∀ k, lookupV (combine_range_loop op w fuel src offset rs) k =
      if offset ≤ k ∧ k < offset + src.length then
        some (op ((lookupV rs k).getD w) (src.getD (k - offset) 0))
      else lookupV rs k) := by
  intro fuel
  induction fuel with
  | zero =>
    intro src offset rs hfuel _ _
    omega
  | succ fuel ih =>
    intro src offset rs hfuel hS hinv
    cases src with
    | nil =>
      rw [crl_nil_src]
      refine ⟨hS.1, List.Chain'.imp (fun a b hab => le_of_lt hab) hS.2,
        fun lb _ h2 => h2, fun k => ?_⟩
      rw [if_neg (by simp only [List.length_nil, Nat.add_zero]; omega)]
    | cons s src' =>
      have hlen1 : 0 < (s :: src').length := by simp
      cases rs with
      | nil =>
        rw [crl_void_nil]
        refine ⟨?_, List.chain'_singleton _, ?_, ?_⟩
        · intro t ht
          simp only [List.mem_singleton] at ht
          subst ht
          simp
        · intro lb hlb _ t ht
          simp only [List.mem_singleton] at ht
          subst ht
          exact hlb
        · intro k
          by_cases hk : offset ≤ k ∧ k < offset + (s :: src').length
          · rw [if_pos hk]
            have hki : (⟨offset, (s :: src').map (fun x => op w x)⟩ : datarange_t).includes k
                = true := by
              rw [datarange_t.includes_iff]
              refine ⟨hk.1, ?_⟩
              simp only [datarange_t.end_index, List.length_map]
              omega
            have hget : (⟨offset, (s :: src').map (fun x => op w x)⟩ : datarange_t).get k
                = op w ((s :: src').getD (k - offset) 0) := by
              rw [dget_def]
              show ((s :: src').map (fun x => op w x)).getD (k - offset) 0 = _
              exact getD_map_lt _ _ _ _ (by omega)
            rw [lookupV_cons_of_includes hki, hget]
            rfl
          · rw [if_neg hk]
            have hni : (⟨offset, (s :: src').map (fun x => op w x)⟩ : datarange_t).includes k
                = false := by
              rw [datarange_t.includes_eq_false_iff]
              simp only [datarange_t.end_index, List.length_map]
              omega
            rw [lookupV_cons_of_not hni]
      | cons r rest =>
        have hend : offset < r.end_index := by
          rcases hinv with h | h
          · exact absurd h (List.cons_ne_nil r rest)
          · simpa using h
        obtain ⟨hrne, hrlink, hSrest⟩ := SVL_cons_iff.mp hS
        by_cases hinc : r.includes offset = true
        · obtain ⟨hro, -⟩ := datarange_t.includes_iff.mp hinc
          by_cases hle : (s :: src').length ≤ r.end_index - offset
          · -- step (1): input exhausted inside `r`
            rw [crl_exhaust op w fuel s src' offset r rest hinc hle]
            have hlenh : (offset - r.offset) + (s :: src').length ≤ r.values.length := by
              have := r.end_index_eq
              omega
            set cie := r.combine_into op offset (s :: src') with hcd
            have hcie : cie.end_index = r.end_index :=
              combine_into_end_index r op offset (s :: src') hro hlenh
            have hcio : cie.offset = r.offset :=
              combine_into_offset r op offset (s :: src')
            have hci := combine_into_lookup r op offset (s :: src') hinc hle
            have hiffk : ∀ k, cie.includes k = r.includes k := by
              intro k
              unfold datarange_t.includes
              rw [hcie, hcio]
            refine ⟨?_, ?_, ?_, ?_⟩
            · intro t ht
              rcases List.mem_cons.mp ht with rfl | ht
              · exact combine_into_values_ne_nil r op offset (s :: src') hrne hro hlenh
              · exact hS.1 t (List.mem_cons_of_mem r ht)
            · rw [List.chain'_cons']
              refine ⟨fun y hy => ?_, List.Chain'.imp (fun a b hab => le_of_lt hab) hSrest.2⟩
              rw [hcie]
              exact le_of_lt (hrlink y hy)
            · intro lb hlb hmem t ht
              rcases List.mem_cons.mp ht with rfl | ht
              · rw [hcio]
                exact hmem r (List.mem_cons_self r rest)
              · exact hmem t (List.mem_cons_of_mem r ht)
            · intro k
              have h1 := hci k
              by_cases hk : offset ≤ k ∧ k < offset + (s :: src').length
              · rw [if_pos hk]
                have hkin : r.includes k = true :=
                  datarange_t.includes_iff.mpr ⟨by omega, by omega⟩
                have hcin : cie.includes k = true := (hiffk k).trans hkin
                rw [lookupV_cons_of_includes hcin, if_pos hk] at h1
                rw [lookupV_cons_of_includes hcin, lookupV_cons_of_includes hkin, h1]
                rfl
              · rw [if_neg hk]
                rw [if_neg hk, lookupV_singleton, lookupV_singleton, hiffk k] at h1
                rw [lookupV_cons, lookupV_cons, hiffk k]
                by_cases hkin : r.includes k = true
                · rw [if_pos hkin, if_pos hkin]
                  rw [if_pos hkin, if_pos hkin] at h1
                  exact h1
                · rw [if_neg hkin, if_neg hkin]
          · -- step (1): the current range is full
            push_neg at hle
            have hlenh : (offset - r.offset) +
                ((s :: src').take (r.end_index - offset)).length ≤ r.values.length := by
              rw [List.length_take]
              have := r.end_index_eq
              omega
            have htklen : ((s :: src').take (r.end_index - offset)).length
                = r.end_index - offset := by
              rw [List.length_take]
              omega
            set cie := r.combine_into op offset ((s :: src').take (r.end_index - offset)) with hcd
            have hcie : cie.end_index = r.end_index :=
              combine_into_end_index _ _ _ _ hro hlenh
            have hcio : cie.offset = r.offset :=
              combine_into_offset _ _ _ _
            have hci := combine_into_lookup r op offset ((s :: src').take (r.end_index - offset))
              hinc (le_of_eq htklen)
            have hiffk : ∀ k, cie.includes k = r.includes k := by
              intro k
              unfold datarange_t.includes
              rw [hcie, hcio]
            have havail1 : 1 ≤ r.end_index - offset := by omega
            cases rest with
            | nil =>
              rw [crl_full_nil op w fuel s src' offset r hinc hle]
              set nr := (⟨r.end_index, ((s :: src').drop (r.end_index - offset)).map
                (fun x => op w x)⟩ : datarange_t) with hnrd
              have hnr_off : nr.offset = r.end_index := rfl
              have hnr_end : nr.end_index = offset + (s :: src').length := by
                rw [hnrd]
                show r.end_index +
                  (((s :: src').drop (r.end_index - offset)).map (fun x => op w x)).length = _
                rw [List.length_map, List.length_drop]
                omega
              refine ⟨?_, ?_, ?_, ?_⟩
              · intro t ht
                rcases List.mem_cons.mp ht with rfl | ht
                · exact combine_into_values_ne_nil r op offset _ hrne hro hlenh
                rcases List.mem_cons.mp ht with rfl | ht
                · rw [hnrd]
                  exact List.length_pos.mp
                    (by simp only [List.length_map, List.length_drop]; omega)
                · simp at ht
              · rw [List.chain'_pair]
                rw [hcie, hnr_off]
              · intro lb hlb hmem t ht
                rcases List.mem_cons.mp ht with rfl | ht
                · rw [hcio]
                  exact hmem r (List.mem_cons_self r [])
                rcases List.mem_cons.mp ht with rfl | ht
                · rw [hnr_off]
                  omega
                · simp at ht
              · intro k
                have h1 := hci k
                rw [htklen] at h1
                by_cases hk1 : k < offset
                · rw [if_neg (by omega)]
                  by_cases hkin : r.includes k = true
                  · have hcin : cie.includes k = true := (hiffk k).trans hkin
                    rw [lookupV_cons_of_includes hcin, lookupV_cons_of_includes hkin]
                    rw [if_neg (by omega), lookupV_singleton, if_pos hcin,
                      lookupV_singleton, if_pos hkin] at h1
                    exact h1
                  · have hkinf : r.includes k = false := Bool.eq_false_iff.mpr hkin
                    have hcin : cie.includes k = false := (hiffk k).trans hkinf
                    have hnin : nr.includes k = false := by
                      rw [datarange_t.includes_eq_false_iff, hnr_off]
                      exact Or.inl (by omega)
                    rw [lookupV_cons_of_not hcin, lookupV_cons_of_not hnin,
                      lookupV_cons_of_not hkinf]
                · push_neg at hk1
                  by_cases hk2 : k < r.end_index
                  · rw [if_pos (by omega)]
                    have hkin : r.includes k = true :=
                      datarange_t.includes_iff.mpr ⟨by omega, hk2⟩
                    have hcin : cie.includes k = true := (hiffk k).trans hkin
                    rw [lookupV_cons_of_includes hcin, lookupV_cons_of_includes hkin]
                    rw [if_pos (by omega), lookupV_cons_of_includes hcin,
                      getD_take_lt _ _ _ _ (by omega)] at h1
                    rw [h1]
                    rfl
                  · push_neg at hk2
                    have hcin : cie.includes k = false := by
                      rw [datarange_t.includes_eq_false_iff, hcie]
                      exact Or.inr hk2
                    have hkrf : r.includes k = false :=
                      datarange_t.includes_eq_false_iff.mpr (Or.inr hk2)
                    by_cases hk3 : k < offset + (s :: src').length
                    · rw [if_pos (by omega)]
                      have hnin : nr.includes k = true := by
                        rw [datarange_t.includes_iff, hnr_off, hnr_end]
                        exact ⟨hk2, hk3⟩
                      rw [lookupV_cons_of_not hcin, lookupV_cons_of_includes hnin,
                        lookupV_cons_of_not hkrf]
                      have hval : nr.get k = op w ((s :: src').getD (k - offset) 0) := by
                        rw [dget_def, hnrd]
                        have h2 : (((s :: src').drop (r.end_index - offset)).map
                            (fun x => op w x)).getD (k - r.end_index) 0
                            = op w (((s :: src').drop (r.end_index - offset)).getD
                              (k - r.end_index) 0) :=
                          getD_map_lt _ _ _ _ (by rw [List.length_drop]; omega)
                        have h4 := getD_drop (s :: src') 0 (r.end_index - offset)
                          (k - r.end_index)
                        have hidx : (r.end_index - offset) + (k - r.end_index) = k - offset := by
                          omega
                        rw [hidx] at h4
                        exact h2.trans (by rw [h4])
                      rw [hval]
                      rfl
                    · push_neg at hk3
                      rw [if_neg (by omega)]
                      have hnin : nr.includes k = false := by
                        rw [datarange_t.includes_eq_false_iff, hnr_end]
                        exact Or.inr hk3
                      rw [lookupV_cons_of_not hcin, lookupV_cons_of_not hnin,
                        lookupV_cons_of_not hkrf]
            | cons r2 rest2 =>
              have hgap : r.end_index < r2.offset := SVL_head_lt hS r2 (by simp)
              have hr2ne : r2.values ≠ [] := hS.1 r2 (by simp)
              have hr2lt : r2.offset < r2.end_index := datarange_t.offset_lt_end hr2ne
              have hm : min (r2.begin_index - r.end_index)
                  ((s :: src').drop (r.end_index - offset)).length ≠ 0 := by
                rw [List.length_drop]
                simp only [datarange_t.begin_index]
                omega
              rw [crl_full_cons op w fuel s src' offset r r2 rest2 hinc hle hm]
              set src2 := (s :: src').drop (r.end_index - offset) with hsrc2
              have hsrc2len : src2.length = (s :: src').length - (r.end_index - offset) := by
                rw [hsrc2, List.length_drop]
              set m := min (r2.begin_index - r.end_index) src2.length with hmdef
              have hm1 : 1 ≤ m := Nat.one_le_iff_ne_zero.mpr hm
              have hmle : m ≤ r2.offset - r.end_index := by
                rw [hmdef]
                exact Nat.min_le_left _ _
              have hmsrc : m ≤ src2.length := by
                rw [hmdef]
                exact Nat.min_le_right _ _
              set nr := (⟨r.end_index, (src2.take m).map (fun x => op w x)⟩ : datarange_t)
                with hnrd
              have hnr_off : nr.offset = r.end_index := rfl
              have hnr_end : nr.end_index = r.end_index + m := by
                rw [hnrd]
                simp only [datarange_t.end_index, List.length_map, List.length_take]
                omega
              obtain ⟨iha, ihb, ihc, ihd⟩ := ih (src2.drop m) (r.end_index + m) (r2 :: rest2)
                (by rw [List.length_drop]; omega) (SVL_tail hS)
                (Or.inr (by simp only [List.headD_cons]; omega))
              have hmemb : ∀ x ∈ r2 :: rest2, r.end_index + m ≤ x.offset := by
                intro x hx
                rcases List.mem_cons.mp hx with rfl | hx
                · omega
                · have := SVL_head_lt (SVL_tail hS) x hx
                  omega
              have hdl : (src2.drop m).length = src2.length - m := by
                rw [List.length_drop]
              refine ⟨?_, ?_, ?_, ?_⟩
              · intro t ht
                rcases List.mem_cons.mp ht with rfl | ht
                · exact combine_into_values_ne_nil r op offset _ hrne hro hlenh
                rcases List.mem_cons.mp ht with rfl | ht
                · rw [hnrd]
                  exact List.length_pos.mp
                    (by simp only [List.length_map, List.length_take]; omega)
                · exact iha t ht
              · rw [List.chain'_cons']
                constructor
                · intro y hy
                  simp only [List.head?_cons, Option.mem_def, Option.some.injEq] at hy
                  subst hy
                  rw [hcie, hnr_off]
                · rw [List.chain'_cons']
                  refine ⟨fun y hy => ?_, ihb⟩
                  have hymem := List.mem_of_mem_head? hy
                  have := ihc (r.end_index + m) (le_refl _) hmemb y hymem
                  rw [hnr_end]
                  exact this
              · intro lb hlb hmem t ht
                rcases List.mem_cons.mp ht with rfl | ht
                · rw [hcio]
                  exact hmem r (List.mem_cons_self r (r2 :: rest2))
                rcases List.mem_cons.mp ht with rfl | ht
                · rw [hnr_off]
                  omega
                · exact ihc lb (by omega)
                    (fun x hx => hmem x (List.mem_cons_of_mem r hx)) t ht
              · intro k
                have h1 := hci k
                rw [htklen] at h1
                have hrecl := ihd k
                by_cases hk1 : k < offset
                · rw [if_neg (by omega)]
                  by_cases hkin : r.includes k = true
                  · have hcin : cie.includes k = true := (hiffk k).trans hkin
                    rw [lookupV_cons_of_includes hcin, lookupV_cons_of_includes hkin]
                    rw [if_neg (by omega), lookupV_singleton, if_pos hcin,
                      lookupV_singleton, if_pos hkin] at h1
                    exact h1
                  · have hkinf : r.includes k = false := Bool.eq_false_iff.mpr hkin
                    have hcin : cie.includes k = false := (hiffk k).trans hkinf
                    have hnin : nr.includes k = false := by
                      rw [datarange_t.includes_eq_false_iff, hnr_off]
                      exact Or.inl (by omega)
                    rw [lookupV_cons_of_not hcin, lookupV_cons_of_not hnin,
                      lookupV_cons_of_not hkinf]
                    have hnone2 : lookupV (r2 :: rest2) k = none :=
                      lookupV_none_of_lt_offset (fun x hx => by
                        have := hmemb x hx
                        omega)
                    rw [hnone2]
                    apply lookupV_none_of_lt_offset
                    intro x hx
                    have := ihc (r.end_index + m) (le_refl _) hmemb x hx
                    omega
                · push_neg at hk1
                  by_cases hk2 : k < r.end_index
                  · rw [if_pos (by omega)]
                    have hkin : r.includes k = true :=
                      datarange_t.includes_iff.mpr ⟨by omega, hk2⟩
                    have hcin : cie.includes k = true := (hiffk k).trans hkin
                    rw [lookupV_cons_of_includes hcin, lookupV_cons_of_includes hkin]
                    rw [if_pos (by omega), lookupV_cons_of_includes hcin,
                      getD_take_lt _ _ _ _ (by omega)] at h1
                    rw [h1]
                    rfl
                  · push_neg at hk2
                    have hcin : cie.includes k = false := by
                      rw [datarange_t.includes_eq_false_iff, hcie]
                      exact Or.inr hk2
                    have hkrf : r.includes k = false :=
                      datarange_t.includes_eq_false_iff.mpr (Or.inr hk2)
                    by_cases hk3 : k < r.end_index + m
                    · rw [if_pos (by omega)]
                      have hnin : nr.includes k = true := by
                        rw [datarange_t.includes_iff, hnr_off, hnr_end]
                        exact ⟨hk2, hk3⟩
                      rw [lookupV_cons_of_not hcin, lookupV_cons_of_includes hnin,
                        lookupV_cons_of_not hkrf]
                      have hnone2 : lookupV (r2 :: rest2) k = none :=
                        lookupV_none_of_lt_offset (fun x hx => by
                          have := hmemb x hx
                          omega)
                      rw [hnone2]
                      have hval : nr.get k = op w ((s :: src').getD (k - offset) 0) := by
                        rw [dget_def, hnrd]
                        have h2 : ((src2.take m).map (fun x => op w x)).getD
                            (k - r.end_index) 0
                            = op w ((src2.take m).getD (k - r.end_index) 0) :=
                          getD_map_lt _ _ _ _ (by rw [List.length_take]; omega)
                        have h3 : (src2.take m).getD (k - r.end_index) 0
                            = src2.getD (k - r.end_index) 0 :=
                          getD_take_lt _ _ _ _ (by omega)
                        have h4 := getD_drop (s :: src') 0 (r.end_index - offset)
                          (k - r.end_index)
                        have hidx : (r.end_index - offset) + (k - r.end_index)
                            = k - offset := by omega
                        rw [hidx, ← hsrc2] at h4
                        exact h2.trans (by rw [h3, h4])
                      rw [hval]
                      rfl
                    · push_neg at hk3
                      have hnin : nr.includes k = false := by
                        rw [datarange_t.includes_eq_false_iff, hnr_end]
                        exact Or.inr hk3
                      rw [lookupV_cons_of_not hcin, lookupV_cons_of_not hnin, hrecl]
                      by_cases hk4 : k < offset + (s :: src').length
                      · rw [if_pos ⟨hk3, by omega⟩, if_pos (by omega)]
                        rw [lookupV_cons_of_not hkrf]
                        have h5 := getD_drop src2 0 m (k - (r.end_index + m))
                        have h6 := getD_drop (s :: src') 0 (r.end_index - offset)
                          (m + (k - (r.end_index + m)))
                        rw [← hsrc2] at h6
                        have hidx : (r.end_index - offset) + (m + (k - (r.end_index + m)))
                            = k - offset := by omega
                        rw [hidx] at h6
                        rw [h5, h6]
                      · push_neg at hk4
                        rw [if_neg (by omega), if_neg (by omega)]
                        rw [lookupV_cons_of_not hkrf]
        · -- step (2): `offset` is in the void before `r`
          have hninc : r.includes offset = false := Bool.eq_false_iff.mpr hinc
          have hlt : offset < r.offset := by
            rcases datarange_t.includes_eq_false_iff.mp hninc with h | h
            · exact h
            · omega
          have hrlt : r.offset < r.end_index := datarange_t.offset_lt_end hrne
          have hm : min (r.begin_index - offset) (s :: src').length ≠ 0 := by
            simp only [datarange_t.begin_index]
            omega
          rw [crl_void_cons op w fuel s src' offset r rest hninc hm]
          set m := min (r.begin_index - offset) (s :: src').length with hmdef
          have hm1 : 1 ≤ m := Nat.one_le_iff_ne_zero.mpr hm
          have hmb : m ≤ r.offset - offset := by
            rw [hmdef]
            simp only [datarange_t.begin_index]
            exact Nat.min_le_left _ _
          have hms : m ≤ (s :: src').length := by
            rw [hmdef]
            exact Nat.min_le_right _ _
          set nr := (⟨offset, ((s :: src').take m).map (fun x => op w x)⟩ : datarange_t)
            with hnrd
          have hnr_off : nr.offset = offset := rfl
          have hnr_end : nr.end_index = offset + m := by
            rw [hnrd]
            simp only [datarange_t.end_index, List.length_map, List.length_take]
            omega
          obtain ⟨iha, ihb, ihc, ihd⟩ := ih ((s :: src').drop m) (offset + m) (r :: rest)
            (by rw [List.length_drop]; omega) hS
            (Or.inr (by simp only [List.headD_cons]; omega))
          have hmemb : ∀ x ∈ r :: rest, offset + m ≤ x.offset := by
            intro x hx
            rcases List.mem_cons.mp hx with rfl | hx
            · omega
            · have := SVL_head_lt hS x hx
              omega
          have hdl : ((s :: src').drop m).length = (s :: src').length - m := by
            rw [List.length_drop]
          refine ⟨?_, ?_, ?_, ?_⟩
          · intro t ht
            rcases List.mem_cons.mp ht with rfl | ht
            · rw [hnrd]
              exact List.length_pos.mp
                (by simp only [List.length_map, List.length_take]; omega)
            · exact iha t ht
          · rw [List.chain'_cons']
            refine ⟨fun y hy => ?_, ihb⟩
            have hymem := List.mem_of_mem_head? hy
            have := ihc (offset + m) (le_refl _) hmemb y hymem
            rw [hnr_end]
            exact this
          · intro lb hlb hmem t ht
            rcases List.mem_cons.mp ht with rfl | ht
            · rw [hnr_off]
              exact hlb
            · exact ihc lb (by omega) hmem t ht
          · intro k
            have hrecl := ihd k
            by_cases hk1 : k < offset
            · rw [if_neg (by omega)]
              have hnin : nr.includes k = false := by
                rw [datarange_t.includes_eq_false_iff, hnr_off]
                exact Or.inl hk1
              rw [lookupV_cons_of_not hnin, hrecl, if_neg (by omega)]
            · push_neg at hk1
              by_cases hk2 : k < offset + m
              · rw [if_pos (by omega)]
                have hnin : nr.includes k = true := by
                  rw [datarange_t.includes_iff, hnr_off, hnr_end]
                  exact ⟨hk1, hk2⟩
                rw [lookupV_cons_of_includes hnin]
                have hnone : lookupV (r :: rest) k = none :=
                  lookupV_none_of_lt_offset (fun x hx => by
                    have := hmemb x hx
                    omega)
                rw [hnone]
                have hval : nr.get k = op w ((s :: src').getD (k - offset) 0) := by
                  rw [dget_def, hnrd]
                  have h2 : (((s :: src').take m).map (fun x => op w x)).getD (k - offset) 0
                      = op w (((s :: src').take m).getD (k - offset) 0) :=
                    getD_map_lt _ _ _ _ (by rw [List.length_take]; omega)
                  have h3 : ((s :: src').take m).getD (k - offset) 0
                      = (s :: src').getD (k - offset) 0 :=
                    getD_take_lt _ _ _ _ (by omega)
                  exact h2.trans (by rw [h3])
                rw [hval]
                rfl
              · push_neg at hk2
                have hnin : nr.includes k = false := by
                  rw [datarange_t.includes_eq_false_iff, hnr_end]
                  exact Or.inr hk2
                rw [lookupV_cons_of_not hnin, hrecl]
                by_cases hk3 : k < offset + (s :: src').length
                · rw [if_pos ⟨hk2, by omega⟩, if_pos (by omega)]
                  have h5 := getD_drop (s :: src') 0 m (k - (offset + m))
                  have hidx : m + (k - (offset + m)) = k - offset := by omega
                  rw [hidx] at h5
                  rw [h5]
                · push_neg at hk3
                  rw [if_neg (by omega), if_neg (by omega)]

/-- Every kept range ends strictly before every range handed to the loop:
pairwise separation across the `take`/`drop` split of a canonical list. -/
theorem SVL_take_drop_lt {rs : List datarange_t} (h : SVL rs) (d : Nat) :
    ∀ a ∈ rs.take d, ∀ b ∈ rs.drop d, a.end_index < b.offset := by
  haveI : IsTrans datarange_t (fun a b => a.end_index < b.offset) :=
    ⟨fun a b c hab hbc => by
      have := b.offset_le_end
      exact lt_of_le_of_lt (le_trans (le_of_lt hab) this) hbc⟩
  have hp := List.chain'_iff_pairwise.mp h.2
  rw [← List.take_append_drop d rs] at hp
  exact fun a ha b hb => (List.pairwise_append.mp hp).2.2 a ha b hb

/-- `sparse_vector::combine_range`: the result is weakly canonical, its
contents are `op` of the old value (`void_value` where void) with the
input on the window `[offset, offset + |src|)` and unchanged elsewhere,
and the nominal size is the usual `fix_size` fix-up. -/
theorem combine_range_spec {v : sparse_vector} (h : Valid v) (o : Nat) (src : List Int)
    (op : Int → Int → Int) (w : Int) :
    WVL (v.combine_range o src op w).ranges ∧
    (∀ k, lookupV (v.combine_range o src op w).ranges k =
      if o ≤ k ∧ k < o + src.length then
        some (op ((lookupV v.ranges k).getD w) (src.getD (k - o) 0))
      else lookupV v.ranges k) ∧
    (v.combine_range o src op w).nominal_size =
      (if (v.combine_range o src op w).ranges = [] then v.nominal_size
       else max v.nominal_size (lastEnd (v.combine_range o src op w).ranges)) := by
  have hS : SVL v.ranges := h.1
  have hW : WVL v.ranges := SVL_toWVL hS
  have hdle := aoa_le_length hW o
  have hpre : ∀ a ∈ v.ranges.take (find_range_iter_at_or_after v.ranges o),
      a.end_index ≤ o := by
    rcases lt_or_eq_of_le hdle with hlt | heq
    · exact (aoa_lt_spec hW o hlt).2
    · intro a ha
      exact (aoa_eq_length_iff hW o).mp heq a (List.mem_of_mem_take ha)
  have hinv : v.ranges.drop (find_range_iter_at_or_after v.ranges o) = [] ∨
      o < ((v.ranges.drop (find_range_iter_at_or_after v.ranges o)).headD
        default).end_index := by
    rcases lt_or_eq_of_le hdle with hlt | heq
    · right
      rw [drop_eq_getD_cons hlt]
      simpa using (aoa_lt_spec hW o hlt).1
    · left
      rw [heq]
      exact List.drop_length _
  obtain ⟨la, lb2, lc, ld⟩ := combine_range_loop_spec op w
    (src.length + (v.ranges.drop (find_range_iter_at_or_after v.ranges o)).length + 1)
    src o (v.ranges.drop (find_range_iter_at_or_after v.ranges o))
    (by omega) (SVL_drop hS _) hinv
  have hcross := SVL_take_drop_lt hS (find_range_iter_at_or_after v.ranges o)
  have hws : WVL (sparse_vector.mk v.nominal_size
      (v.ranges.take (find_range_iter_at_or_after v.ranges o) ++
        combine_range_loop op w
          (src.length + (v.ranges.drop (find_range_iter_at_or_after v.ranges o)).length + 1)
          src o (v.ranges.drop (find_range_iter_at_or_after v.ranges o)))).ranges := by
    constructor
    · intro t ht
      rcases List.mem_append.mp ht with ht | ht
      · exact hS.1 t (List.mem_of_mem_take ht)
      · exact la t ht
    · rw [List.chain'_append]
      refine ⟨List.Chain'.imp (fun a b hab => le_of_lt hab) (SVL_take hS _).2, lb2, ?_⟩
      intro x hx y hy
      have hxmem := mem_of_getLast?_eq _ _ hx
      exact lc x.end_index (hpre x hxmem)
        (fun rr hrr => le_of_lt (hcross x hxmem rr hrr)) y (List.mem_of_mem_head? hy)
  have hlook : ∀ k, lookupV
      (v.ranges.take (find_range_iter_at_or_after v.ranges o) ++
        combine_range_loop op w
          (src.length + (v.ranges.drop (find_range_iter_at_or_after v.ranges o)).length + 1)
          src o (v.ranges.drop (find_range_iter_at_or_after v.ranges o))) k =
      if o ≤ k ∧ k < o + src.length then
        some (op ((lookupV v.ranges k).getD w) (src.getD (k - o) 0))
      else lookupV v.ranges k := by
    intro k
    by_cases hk : o ≤ k ∧ k < o + src.length
    · rw [if_pos hk]
      have hAnone : lookupV (v.ranges.take (find_range_iter_at_or_after v.ranges o)) k
          = none :=
        lookupV_none_of_ge_end (fun a ha => le_trans (hpre a ha) hk.1)
      have hdropeq : lookupV v.ranges k =
          lookupV (v.ranges.drop (find_range_iter_at_or_after v.ranges o)) k := by
        conv_lhs => rw [← List.take_append_drop (find_range_iter_at_or_after v.ranges o)
          v.ranges]
        rw [lookupV_append_of_none _ hAnone]
      rw [lookupV_append_of_none _ hAnone, ld k, if_pos hk, hdropeq]
    · rw [if_neg hk]
      conv_rhs => rw [← List.take_append_drop (find_range_iter_at_or_after v.ranges o)
        v.ranges]
      rcases hAk : lookupV (v.ranges.take (find_range_iter_at_or_after v.ranges o)) k
        with _ | x
      · rw [lookupV_append_of_none _ hAk, lookupV_append_of_none _ hAk, ld k, if_neg hk]
      · rw [lookupV_append_of_some _ hAk, lookupV_append_of_some _ hAk]
  obtain ⟨hWm, hLm⟩ := merge_ranges_WVL_spec hws
    (find_extending_range_iter
      (v.ranges.take (find_range_iter_at_or_after v.ranges o) ++
        combine_range_loop op w
          (src.length + (v.ranges.drop (find_range_iter_at_or_after v.ranges o)).length + 1)
          src o (v.ranges.drop (find_range_iter_at_or_after v.ranges o)))
      (if o = 0 then 0 else o - 1))
  exact ⟨hWm, fun k => (hLm k).trans (hlook k), merge_ranges_nominal _ _⟩

/-- On weakly canonical lists, the `find_next_range_iter`-based membership
test used by `is_void` agrees with the observable cell coverage. -/
theorem lookupV_isSome_iff_fnr {rs : List datarange_t} (h : WVL rs) (k : Nat) :
    (lookupV rs k).isSome = true ↔
      (find_next_range_iter rs k ≠ 0 ∧
        k < (rs.getD (find_next_range_iter rs k - 1) default).end_index) := by
  induction rs with
  | nil => simp [lookupV, fnr_nil]
  | cons r t ih =>
    obtain ⟨hrne, hlink, htail⟩ := WVL_cons_iff.mp h
    rw [fnr_cons]
    by_cases hko : k < r.offset
    · rw [if_pos hko]
      have hnone : lookupV (r :: t) k = none := by
        apply lookupV_none_of_lt_offset
        intro x hx
        rcases List.mem_cons.mp hx with rfl | hx
        · exact hko
        · have h1 := WVL_head_le h x hx
          have h2 := r.offset_le_end
          omega
      rw [hnone]
      simp
    · rw [if_neg hko]
      push_neg at hko
      rcases Nat.eq_zero_or_pos (find_next_range_iter t k) with hf0 | hfp
      · rw [hf0]
        simp only [Nat.add_sub_cancel, ne_eq, Nat.add_eq_zero, Nat.succ_ne_zero,
          and_false, not_false_iff, true_and, List.getD_cons_zero]
        have htnone : lookupV t k = none := by
          apply lookupV_none_of_lt_offset
          intro x hx
          cases t with
          | nil => simp at hx
          | cons r2 t2 =>
            rw [fnr_cons] at hf0
            have hkr2 : k < r2.offset := by
              by_contra hc
              rw [if_neg (by omega)] at hf0
              omega
            rcases List.mem_cons.mp hx with rfl | hx
            · exact hkr2
            · have h1 := WVL_head_le htail x hx
              have h2 := r2.offset_le_end
              omega
        rw [lookupV_cons]
        by_cases hke : k < r.end_index
        · rw [if_pos (datarange_t.includes_iff.mpr ⟨hko, hke⟩)]
          simp [hke]
        · rw [if_neg (by rw [datarange_t.includes_iff]; omega), htnone]
          simp
          omega
      · have hf0 : find_next_range_iter t k ≠ 0 := by omega
        have hke : r.end_index ≤ k := by
          cases t with
          | nil => rw [fnr_nil] at hf0; omega
          | cons r2 t2 =>
            rw [fnr_cons] at hf0
            have : r2.offset ≤ k := by
              by_contra hc
              rw [if_pos (by omega)] at hf0
              omega
            have h1 := hlink r2 (by simp)
            omega
        rw [lookupV_cons, if_neg (by rw [datarange_t.includes_iff]; omega)]
        rw [ih htail]
        have hidx : find_next_range_iter t k + 1 - 1 = (find_next_range_iter t k - 1) + 1 := by
          omega
        rw [hidx, List.getD_cons_succ]
        constructor
        · exact fun ⟨_, h2⟩ => ⟨by omega, h2⟩
        · exact fun ⟨_, h2⟩ => ⟨hf0, h2⟩

/-- `is_void` answers `.ok false` at any covered cell below the nominal
size (when there is at least one stored range). -/
theorem is_void_of_lookup_some {v : sparse_vector} (h : WVL v.ranges) {k : Nat}
    (hs : (lookupV v.ranges k).isSome = true) (hk : k < v.size) :
    v.is_void k = .ok false := by
  have hne : v.ranges ≠ [] := by
    intro hc
    rw [hc] at hs
    simp [lookupV] at hs
  unfold is_void
  rw [if_neg (by push_neg; exact ⟨hne, by omega⟩)]
  have hiff := (lookupV_isSome_iff_fnr h k).mp hs
  show Except.ok (decide (find_next_range_iter v.ranges k = 0 ∨
    (v.ranges.getD (find_next_range_iter v.ranges k - 1) default).end_index ≤ k)) =
    Except.ok false
  congr 1
  rw [decide_eq_false_iff_not]
  push_neg
  exact ⟨hiff.1, by omega⟩

/-- Claim C4: after `add_range(a, A)` then `add_range(b, B)` with
overlapping windows, every position `k` in the intersection of
`[a, a + |A|)` and `[b, b + |B|)` reads as `B[k - b]`: the data supplied
by the later call wins on the overlap. -/
theorem c4_add_range_overlap_later_wins {v : sparse_vector} (h : Valid v)
    (a b : Nat) (A B : List Int) (k : Nat)
    (hkA : a ≤ k ∧ k < a + A.length) (hkB : b ≤ k ∧ k < b + B.length) :
    ((v.add_range a A).add_range b B).get k = B.getD (k - b) 0 := by
  have h1 := add_range_Valid h a A
  obtain ⟨hS2, hlook2, -⟩ := add_range_spec h1 b B
  rw [get_eq_lookupV (SVL_toWVL hS2), hlook2 k, if_pos hkB]
  rfl

/-- Witness for C4: fresh vector, `add_range(0, [1,2,3])` then
`add_range(2, [7,8])`; position 2 lies in both windows and reads `7`. -/
theorem c4_add_range_overlap_later_wins_witness :
    Valid (⟨0, []⟩ : sparse_vector) ∧ (0 ≤ 2 ∧ 2 < 0 + 3) ∧ (2 ≤ 2 ∧ 2 < 2 + 2) ∧
    (((⟨0, []⟩ : sparse_vector).add_range 0 [1, 2, 3]).add_range 2 [7, 8]).get 2 =
      List.getD [7, 8] (2 - 2) 0 :=
  ⟨⟨SVL_nil, le_of_eq lastEnd_nil⟩, by decide, by decide,
    c4_add_range_overlap_later_wins ⟨SVL_nil, le_of_eq lastEnd_nil⟩ 0 2 [1, 2, 3] [7, 8] 2
      (by decide) (by decide)⟩

/-- Claim C5: after `combine_range(o, src, +, 0)`, each index `o + i`
with `i < |src|` reads as the value it read before the call (`0` if it
was void) plus `src[i]`, and the cell is present afterwards —
`is_void(o + i)` returns `false` (and does not fail) — whether or not
`o + i` was void before. -/
theorem c5_combine_range_adds_elementwise {v : sparse_vector} (h : v.is_valid = true)
    (o : Nat) (src : List Int) (i : Nat) (hi : i < src.length) :
    (v.combine_range o src (fun a b => a + b) 0).get (o + i)
      = v.get (o + i) + src.getD i 0 ∧
    (v.combine_range o src (fun a b => a + b) 0).is_void (o + i) = .ok false := by
  have hVal := (is_valid_iff_Valid v).mp h
  obtain ⟨hWm, hLm, hNm⟩ := combine_range_spec hVal o src (fun a b => a + b) 0
  have hwin : o ≤ o + i ∧ o + i < o + src.length := by omega
  have hl := hLm (o + i)
  rw [if_pos hwin] at hl
  have hidx : o + i - o = i := by omega
  rw [hidx] at hl
  have hsome : (lookupV (v.combine_range o src (fun a b => a + b) 0).ranges
      (o + i)).isSome = true := by
    rw [hl]
    rfl
  constructor
  · rw [get_eq_lookupV hWm, hl, get_eq_lookupV (SVL_toWVL hVal.1)]
    rfl
  · apply is_void_of_lookup_some hWm hsome
    have hlt := lookupV_lt_lastEnd hWm hsome
    have hne : (v.combine_range o src (fun a b => a + b) 0).ranges ≠ [] := by
      intro hc
      rw [hc] at hsome
      simp [lookupV] at hsome
    show o + i < (v.combine_range o src (fun a b => a + b) 0).nominal_size
    rw [hNm, if_neg hne]
    exact lt_of_lt_of_le hlt (le_max_right _ _)

/-- Witness for C5 at `cex_v2`, `combine_range(2, [1,1,1], +, 0)`, `i = 0`
(a present cell) — the hypotheses hold and the theorem applies. -/
theorem c5_combine_range_adds_elementwise_witness :
    cex_v2.is_valid = true ∧ (0 : Nat) < ([1, 1, 1] : List Int).length ∧
    ((cex_v2.combine_range 2 [1, 1, 1] (fun a b => a + b) 0).get (2 + 0)
        = cex_v2.get (2 + 0) + List.getD [1, 1, 1] 0 0 ∧
      (cex_v2.combine_range 2 [1, 1, 1] (fun a b => a + b) 0).is_void (2 + 0) = .ok false) :=
  ⟨by decide, by decide,
    c5_combine_range_adds_elementwise (by decide) 2 [1, 1, 1] 0 (by decide)⟩

/-- A weakly canonical list with a stored range covers some cell. -/
theorem WVL_ne_nil_lookup {rs : List datarange_t} (h : WVL rs) (hne : rs ≠ []) :
    ∃ k, (lookupV rs k).isSome = true := by
  cases rs with
  | nil => exact absurd rfl hne
  | cons r t =>
    refine ⟨r.offset, ?_⟩
    have hrne : r.values ≠ [] := h.1 r (by simp)
    rw [lookupV_cons_of_includes (datarange_t.includes_iff.mpr
      ⟨le_refl _, datarange_t.offset_lt_end hrne⟩)]
    rfl

/-- Claim C3, counterexample: with `op = (a,b) ↦ b`, `combine_range` does
NOT yield the same state as `add_range`.  On `cex_v2` (`[0,1)` and
`[2,4)` stored) with offset 2 and data `[1,1,1]`, `add_range` extends
`[2,4)` into one range `[2,5)` while `combine_range` leaves the adjacent
pair `[2,4)`, `[4,5)` unmerged: three ranges against two. -/
theorem c3_combine_snd_ne_add_range :
    cex_v2.combine_range 2 [1, 1, 1] (fun a b => b) 0 ≠ cex_v2.add_range 2 [1, 1, 1] ∧
    (cex_v2.combine_range 2 [1, 1, 1] (fun a b => b) 0).ranges.length = 3 ∧
    (cex_v2.add_range 2 [1, 1, 1]).ranges.length = 2 := by
  decide

/-- Claim C3, amended: with `op = (a,b) ↦ b`, `combine_range` yields the
same OBSERVABLE state as `add_range` — same nominal size, same value at
every index, and the same present/void status at every index — though not
necessarily the same internal range list. -/
theorem c3_combine_snd_matches_add_range_observably {v : sparse_vector}
    (h : v.is_valid = true) (o : Nat) (src : List Int) (w : Int) :
    (v.combine_range o src (fun a b => b) w).nominal_size
      = (v.add_range o src).nominal_size ∧
    (∀ k, (v.combine_range o src (fun a b => b) w).get k = (v.add_range o src).get k) ∧
    (∀ k, (lookupV (v.combine_range o src (fun a b => b) w).ranges k).isSome
      = (lookupV (v.add_range o src).ranges k).isSome) := by
  have hVal := (is_valid_iff_Valid v).mp h
  obtain ⟨hWc, hLc, hNc⟩ := combine_range_spec hVal o src (fun a b => b) w
  obtain ⟨hSa, hLa, hNa⟩ := add_range_spec hVal o src
  have hWa := SVL_toWVL hSa
  have hlookeq : ∀ k, lookupV (v.combine_range o src (fun a b => b) w).ranges k
      = lookupV (v.add_range o src).ranges k := by
    intro k
    rw [hLc k, hLa k]
  have hcov : ∀ k, (lookupV (v.combine_range o src (fun a b => b) w).ranges k).isSome
      = (lookupV (v.add_range o src).ranges k).isSome := by
    intro k
    rw [hlookeq k]
  have hnil : (v.combine_range o src (fun a b => b) w).ranges = [] ↔
      (v.add_range o src).ranges = [] := by
    constructor
    · intro hc
      by_contra hne
      obtain ⟨k, hk⟩ := WVL_ne_nil_lookup hWa hne
      rw [← hcov k, hc] at hk
      simp [lookupV] at hk
    · intro hc
      by_contra hne
      obtain ⟨k, hk⟩ := WVL_ne_nil_lookup hWc hne
      rw [hcov k, hc] at hk
      simp [lookupV] at hk
  refine ⟨?_, fun k => ?_, hcov⟩
  · rw [hNc, hNa]
    by_cases hc : (v.combine_range o src (fun a b => b) w).ranges = []
    · rw [if_pos hc, if_pos (hnil.mp hc)]
    · rw [if_neg hc, if_neg (fun hx => hc (hnil.mpr hx))]
      rw [lastEnd_eq_of_cov hWc hWa hcov]
  · rw [get_eq_lookupV hWc, get_eq_lookupV hWa, hlookeq k]

/-- Witness for C3's amended theorem at `cex_v2`, offset 2, data
`[1,1,1]`, void value 0. -/
theorem c3_combine_snd_matches_add_range_observably_witness :
    cex_v2.is_valid = true ∧
    ((cex_v2.combine_range 2 [1, 1, 1] (fun a b => b) 0).nominal_size
        = (cex_v2.add_range 2 [1, 1, 1]).nominal_size ∧
      (∀ k, (cex_v2.combine_range 2 [1, 1, 1] (fun a b => b) 0).get k
        = (cex_v2.add_range 2 [1, 1, 1]).get k) ∧
      (∀ k, (lookupV (cex_v2.combine_range 2 [1, 1, 1] (fun a b => b) 0).ranges k).isSome
        = (lookupV (cex_v2.add_range 2 [1, 1, 1]).ranges k).isSome)) :=
  ⟨by decide, c3_combine_snd_matches_add_range_observably (by decide) 2 [1, 1, 1] 0⟩

/-- Claim C2: for every canonical sparse vector and every const iterator
obtained publicly — constructed as `const_iterator(v, i)` or reached from
`begin()` by any sequence of `operator++` and `operator+=` steps —
dereferencing returns exactly the read-only element access `v[index]`:
the stored element inside a range, `0` in the void or at/past the end. -/
theorem c2_const_iterator_deref_eq_access (v : sparse_vector) (hv : v.is_valid = true)
    (it : const_iterator) (hit : iter_reach v it) :
    const_iterator.deref v it = v.get it.index := by
  have h := (is_valid_iff_Valid v).mp hv
  exact deref_eq_get h it (iter_reach_cached h hit)

/-- Witness for C2: the iterator of `cex_v2` at offset 3 (inside the
range `[2,4)`), and the one reached from `begin()` by `++` and `+= 4`. -/
theorem c2_const_iterator_deref_eq_access_witness :
    const_iterator.deref cex_v2 (const_iterator.at_offset cex_v2 3) =
      cex_v2.get (const_iterator.at_offset cex_v2 3).index ∧
    const_iterator.deref cex_v2
        (const_iterator.add cex_v2 (const_iterator.inc cex_v2 (const_iterator.begin_iter cex_v2)) 4) =
      cex_v2.get
        (const_iterator.add cex_v2 (const_iterator.inc cex_v2 (const_iterator.begin_iter cex_v2)) 4).index :=
  ⟨c2_const_iterator_deref_eq_access cex_v2 (by decide) _ (iter_reach.at_offset 3),
    c2_const_iterator_deref_eq_access cex_v2 (by decide) _
      (iter_reach.add 4 (iter_reach.inc iter_reach.begin_iter))⟩

/-- Claim C1: FALSE of the code.  The canonical form is not preserved by
every public mutating operation.  Starting from a freshly constructed
vector, `add_range(0, [5])` and `add_range(2, [7,8])` keep `is_valid()`
true, but the subsequent `combine_range(2, [1,1,1], +, 0)` leaves the two
adjacent ranges `[2,4)` and `[4,5)` (no separating void cell): the final
merge pass starts at `find_extending_range_iter(offset - 1)`, which here
lands on the range `[0,1)` and stops immediately, so the freshly created
train is never coalesced and `is_valid()` returns false. -/
theorem c1_canonical_form_broken_by_combine_range :
    is_valid cex_v1 = true ∧ is_valid cex_v2 = true ∧ is_valid cex_v3 = false ∧
    cex_v3.ranges.map (fun r => (r.offset, r.values)) = [(0, [5]), (2, [8, 9]), (4, [1])] := by
  decide

/-- Claim C6: FALSE of the code at a concrete input.  `is_void(3)` on a
freshly constructed `sparse_vector(10)` (nominal size 10 > 0, index
3 < 10, no stored range) raises `out_of_range`, because the guard tests
`ranges.empty()` instead of `empty()` (i.e. `N = 0`); the claim — and the
function's own documentation — say no error is raised there. -/
theorem c6_is_void_throws_on_rangeless_vector :
    fresh10.size = 10 ∧ fresh10.size ≠ 0 ∧ 3 < fresh10.size ∧
    fresh10.is_void 3 = .error ("empty sparse vector") :=
  ⟨by decide, by decide, by decide, rfl⟩

/-- Claim C7: FALSE of the code at a concrete input.  On a freshly
constructed `sparse_vector(5)`, `set_at(2, 7)` creates the singleton
range `{2}` and `unset_at(2)` removes it, leaving no range at all; the
subsequent `is_void(2)` then raises `out_of_range` (see C6) instead of
returning true. -/
theorem c7_unset_then_is_void_throws :
    2 < fresh5.size ∧ ((fresh5.set_at 2 7).unset_at 2).ranges = [] ∧
    ((fresh5.set_at 2 7).unset_at 2).is_void 2 = .error ("empty sparse vector") :=
  ⟨by decide, by decide, rfl⟩

end lar

/-- Claim C8: `Exists(trackid)` is true iff `trackid ≠ -INT_MAX`;
`GetAncestor(trackid)` is `-INT_MAX` exactly when no descendant set
contains `trackid` (given that no ancestor key equals `-INT_MAX`); hence
`Exists(GetAncestor(t))` is false for every `t` in no descendant set. -/
theorem c8_ancestry_map_sentinel :
    (∀ (m : sim.ParticleAncestryMap) (t : Int), m.Exists t = true ↔ t ≠ -sim.intMax) ∧
    (∀ (m : sim.ParticleAncestryMap) (t : Int),
      (∀ p ∈ m.fParticleMap, p.1 ≠ -sim.intMax) →
      (m.GetAncestor t = -sim.intMax ↔ ∀ p ∈ m.fParticleMap, ¬ p.2.contains t)) ∧
    (∀ (m : sim.ParticleAncestryMap) (t : Int),
      (∀ p ∈ m.fParticleMap, ¬ p.2.contains t) →
      m.Exists (m.GetAncestor t) = false) := by
  refine ⟨fun m t => by simp [sim.ParticleAncestryMap.Exists], fun m t hkeys => ?_, fun m t hmem => ?_⟩
  · unfold sim.ParticleAncestryMap.GetAncestor
    rcases hfind : m.fParticleMap.find? (fun p => p.2.contains t) with _ | p
    · rw [hfind]
      rw [List.find?_eq_none] at hfind
      exact ⟨fun _ p hp => by simpa using hfind p hp, fun _ => rfl⟩
    · rw [hfind]
      have hpmem : p ∈ m.fParticleMap := List.mem_of_find?_eq_some hfind
      have hpt : p.2.contains t := by simpa using List.find?_some hfind
      constructor
      · intro hkey
        exact absurd hkey (hkeys p hpmem)
      · intro hall
        exact absurd hpt (hall p hpmem)
  · unfold sim.ParticleAncestryMap.Exists sim.ParticleAncestryMap.GetAncestor
    rcases hfind : m.fParticleMap.find? (fun p => p.2.contains t) with _ | p
    · rw [hfind]
      simp
    · have hpmem : p ∈ m.fParticleMap := List.mem_of_find?_eq_some hfind
      have hpt : p.2.contains t := by simpa using List.find?_some hfind
      exact absurd hpt (hmem p hpmem)

/-- Witness for C8 at the concrete map `{3 ↦ {7}}` and track id 5. -/
theorem c8_ancestry_map_sentinel_witness :
    (sim.ParticleAncestryMap.mk [(3, [7])]).GetAncestor 5 = -sim.intMax ∧
    (sim.ParticleAncestryMap.mk [(3, [7])]).Exists
      ((sim.ParticleAncestryMap.mk [(3, [7])]).GetAncestor 5) = false :=
  ⟨(c8_ancestry_map_sentinel.2.1 (sim.ParticleAncestryMap.mk [(3, [7])]) 5
      (by decide)).mpr (by decide),
    c8_ancestry_map_sentinel.2.2 (sim.ParticleAncestryMap.mk [(3, [7])]) 5 (by decide)⟩

namespace lar

/-- Claim C9: the `(container, offset)` constructor clamps the index to at
most `size()`; `operator++` preserves `index ≤ size()`; and incrementing a
past-the-end iterator is a no-op, leaving it equal (as iterators compare)
to the end iterator. -/
theorem c9_const_iterator_index_bounded (v : sparse_vector) (off : Nat) (it : const_iterator) :
    (const_iterator.at_offset v off).index ≤ v.size ∧
    (it.index ≤ v.size → (const_iterator.inc v it).index ≤ v.size) ∧
    (it.index = v.size → const_iterator.inc v it = it ∧
      const_iterator.eq (const_iterator.inc v it) (const_iterator.end_iter v) = true) := by
  refine ⟨Nat.min_le_right _ _, fun hle => ?_, fun hend => ?_⟩
  · unfold const_iterator.inc
    split
    · exact hle
    · simp only []
      split <;> simp <;> omega
  · have hge : v.size ≤ it.index := le_of_eq hend.symm
    constructor
    · unfold const_iterator.inc
      simp [hge]
    · unfold const_iterator.inc const_iterator.eq const_iterator.end_iter
      simp [hge, hend]

/-- Witness for C9: concrete container `cex_v2` (size 4), offset 9, and
the past-the-end iterator. -/
theorem c9_const_iterator_index_bounded_witness :
    (const_iterator.at_offset cex_v2 9).index ≤ cex_v2.size ∧
    const_iterator.inc cex_v2 (const_iterator.end_iter cex_v2) = const_iterator.end_iter cex_v2 :=
  ⟨(c9_const_iterator_index_bounded cex_v2 9 (const_iterator.end_iter cex_v2)).1,
    ((c9_const_iterator_index_bounded cex_v2 9 (const_iterator.end_iter cex_v2)).2.2 (by decide)).1⟩

end lar
